import Mathlib

/-!
# Verification of the triggerkit export-discovery and module-synthesis engine

This file gives a shallow embedding, in Lean 4, of the core pure functions of
the `triggerkit` repository (environment-import rewriting, declaration
extraction over the parsed syntax tree, directory scanning, and virtual-module
synthesis), and settles the specification claims C1..C10 against it.

Conventions:
* Strings are modelled as `List Char` at the proof level; the JavaScript
  whitespace class `\s` is modelled by its ASCII subset (space, tab, newline,
  carriage return, vertical tab, form feed), which is what the scanned source
  files contain.
* Stateful logging (`console.warn` / `console.error`) is modelled by explicit
  warning lists returned alongside results.
* External collaborators (the TypeScript parser of
  `@typescript-eslint/typescript-estree`, the filesystem) are modelled as
  oracle parameters / explicit tree values; everything implemented inside the
  repository is transliterated from its source.
-/

/-- ASCII subset of the JavaScript regex class `\s` (and of `String.prototype.trim`). -/
def isWsChar (c : Char) : Bool :=
  c = ' ' || c = '\t' || c = '\n' || c = '\r' || c = '\x0b' || c = '\x0c'

/-- Strip a literal character sequence from the front of the input, returning
the remainder on success.  This models matching a literal piece of a regular
expression at the current position. -/
def litStrip : List Char → List Char → Option (List Char)
  | [], s => some s
  | _ :: _, [] => none
  | p :: ps, c :: cs => if c = p then litStrip ps cs else none

/-- `String.prototype.split(',')`: split on every comma; an input with no
comma yields one piece, and pieces may be empty. -/
def splitComma : List Char → List (List Char)
  | [] => [[]]
  | c :: cs =>
    if c = ',' then [] :: splitComma cs
    else
      match splitComma cs with
      | [] => [[c]]
      | p :: ps => (c :: p) :: ps

/-- `String.prototype.trim()` on the ASCII whitespace subset. -/
def trimL (l : List Char) : List Char :=
  ((l.dropWhile isWsChar).reverse.dropWhile isWsChar).reverse

/-- The capture group of `\{\s*([^}]+)\s*\}` once the maximal run `r` of
non-`}` characters between the braces is known: the greedy leading `\s*`
takes the whitespace prefix and the group keeps the rest; when `r` is all
whitespace the engine backtracks one position so the group is the last
character of `r`. -/
def braceGroup (r : List Char) : List Char :=
  let g := r.dropWhile isWsChar
  if g.isEmpty then r.drop (r.length - 1) else g

def litImport : List Char := ['i', 'm', 'p', 'o', 'r', 't']
def litFrom : List Char := ['f', 'r', 'o', 'm']
def litEnvStatic : List Char := ['$', 'e', 'n', 'v', '/', 's', 't', 'a', 't', 'i', 'c', '/']
def litPrivate : List Char := ['p', 'r', 'i', 'v', 'a', 't', 'e']
def litPublic : List Char := ['p', 'u', 'b', 'l', 'i', 'c']

def isQuoteChar (c : Char) : Bool := c = '\x27' || c = '"'

/-- One attempted match, at the current position, of the environment-import
regular expression of `transformEnvImports`
(`import\s*{\s*([^}]+)\s*}\s*from\s*['"]($env\/static\/(?:private|public))['"];?`).
On success it returns the brace capture group and the input remaining after
the match. -/
def matchEnv (s : List Char) : Option (List Char × List Char) :=
  match litStrip litImport s with
  | none => none
  | some s1 =>
    match s1.dropWhile isWsChar with
    | [] => none
    | b :: s3 =>
      if b = '\x7b' then
        match s3.dropWhile (fun c => !(c = '\x7d')) with
        | [] => none
        | _ :: s5 =>
          if (s3.takeWhile (fun c => !(c = '\x7d'))).isEmpty then none
          else
            match litStrip litFrom (s5.dropWhile isWsChar) with
            | none => none
            | some s7 =>
              match s7.dropWhile isWsChar with
              | [] => none
              | q1 :: s9 =>
                if isQuoteChar q1 then
                  match litStrip litEnvStatic s9 with
                  | none => none
                  | some s10 =>
                    match
                      (match litStrip litPrivate s10 with
                       | some x => some x
                       | none => litStrip litPublic s10) with
                    | none => none
                    | some s11 =>
                      match s11 with
                      | [] => none
                      | q2 :: s12 =>
                        if isQuoteChar q2 then
                          some (braceGroup (s3.takeWhile (fun c => !(c = '\x7d'))),
                            match s12 with
                            | ';' :: s13 => s13
                            | _ => s12)
                        else none
                else none
      else none

/-- The replacement emitted for one matched environment import: the capture
group is split on commas, each piece trimmed, empty pieces dropped, and the
result joined into `const { … } = process.env;`. -/
def envVarsOf (g : List Char) : List (List Char) :=
  ((splitComma g).map trimL).filter (fun v => !v.isEmpty)

/-- `", "`-join, as produced by `vars.join(', ')`. -/
def joinCommaSp : List (List Char) → List Char
  | [] => []
  | [v] => v
  | v :: vs => v ++ ',' :: ' ' :: joinCommaSp vs

def constOpen : List Char := ['c', 'o', 'n', 's', 't', ' ', '\x7b', ' ']
def constClose : List Char :=
  [' ', '\x7d', ' ', '=', ' ', 'p', 'r', 'o', 'c', 'e', 's', 's', '.', 'e', 'n', 'v', ';']

def envDestr (g : List Char) : List Char :=
  constOpen ++ joinCommaSp (envVarsOf g) ++ constClose

/-- Fuelled scan of `code.replace(regex, fn)` with a global regex: at each
position try the match; on success emit the replacement and continue after the
match, otherwise copy one character.  `fuel ≥ length` always suffices. -/
def transformGo : Nat → List Char → List Char
  | 0, s => s
  | _ + 1, [] => []
  | fuel + 1, c :: cs =>
    match matchEnv (c :: cs) with
    | some (g, r) => envDestr g ++ transformGo fuel r
    | none => c :: transformGo fuel cs

/-- `transformEnvImports` of `src/lib/utils/transforms.ts`: rewrite every
occurrence of the environment-import statement pattern into a `process.env`
destructuring. -/
def transformEnvImportsL (s : List Char) : List Char :=
  transformGo s.length s

/-- String-level wrapper of the transformer, keeping the source name. -/
def transformEnvImports (code : String) : String :=
  String.mk (transformEnvImportsL code.data)

example :
    transformEnvImports "import \x7b DATABASE_URL \x7d from \x27$env/static/private\x27;" =
      "const \x7b DATABASE_URL \x7d = process.env;" := by decide

example :
    transformEnvImports "import \x7b A, B \x7d from \"$env/static/public\"" =
      "const \x7b A, B \x7d = process.env;" := by decide

example :
    transformEnvImports "import \x7b A \x7d from \x27./other\x27;" =
      "import \x7b A \x7d from \x27./other\x27;" := by decide

/-! ## Basic lemmas about the scanning primitives -/

theorem litStrip_len {p s r : List Char} (h : litStrip p s = some r) :
    r.length + p.length = s.length := by
  induction p generalizing s with
  | nil => simp [litStrip] at h; simp [h]
  | cons a ps ih =>
    cases s with
    | nil => simp [litStrip] at h
    | cons c cs =>
      simp only [litStrip] at h
      split at h
      · have := ih h
        simp [List.length_cons]
        omega
      · exact absurd h (by simp)

theorem litStrip_self (p s : List Char) : litStrip p (p ++ s) = some s := by
  induction p with
  | nil => simp [litStrip]
  | cons a ps ih => simp [litStrip, ih]

theorem dropWhile_len_le (p : Char → Bool) (l : List Char) :
    (l.dropWhile p).length ≤ l.length := by
  induction l with
  | nil => simp
  | cons a l ih =>
    rw [List.dropWhile_cons]
    split
    · exact Nat.le_succ_of_le ih
    · simp

theorem takeWhile_append_all {p : Char → Bool} {a : List Char}
    (h : ∀ c ∈ a, p c = true) (b : List Char) :
    (a ++ b).takeWhile p = a ++ b.takeWhile p := by
  induction a with
  | nil => simp
  | cons x xs ih =>
    have hx : p x = true := h x (by simp)
    simp only [List.cons_append, List.takeWhile_cons, hx, if_true]
    rw [ih (fun c hc => h c (by simp [hc]))]

theorem dropWhile_append_all {p : Char → Bool} {a : List Char}
    (h : ∀ c ∈ a, p c = true) (b : List Char) :
    (a ++ b).dropWhile p = b.dropWhile p := by
  induction a with
  | nil => simp
  | cons x xs ih =>
    have hx : p x = true := h x (by simp)
    simp only [List.cons_append, List.dropWhile_cons, hx, if_true]
    exact ih (fun c hc => h c (by simp [hc]))

theorem matchEnv_rest_lt {s g r : List Char} (h : matchEnv s = some (g, r)) :
    r.length < s.length := by
  unfold matchEnv at h
  cases h1 : litStrip litImport s with
  | none => simp [h1] at h
  | some s1 =>
    simp only [h1] at h
    have hs1 : s1.length + 6 = s.length := by
      have := litStrip_len h1; simpa [litImport] using this
    cases h2 : s1.dropWhile isWsChar with
    | nil => simp [h2] at h
    | cons b s3 =>
      simp only [h2] at h
      have hws : s3.length < s1.length := by
        have := dropWhile_len_le isWsChar s1
        rw [h2] at this; simp at this; omega
      split at h
      · cases h4 : s3.dropWhile (fun c => !(c = '\x7d')) with
        | nil => simp [h4] at h
        | cons d s5 =>
          simp only [h4] at h
          have h5l : s5.length < s3.length := by
            have := dropWhile_len_le (fun c => !(c = '\x7d')) s3
            rw [h4] at this; simp at this; omega
          split at h
          · exact absurd h (by simp)
          · cases h6 : litStrip litFrom (s5.dropWhile isWsChar) with
            | none => simp [h6] at h
            | some s7 =>
              simp only [h6] at h
              have h7l : s7.length + 4 = (s5.dropWhile isWsChar).length := by
                have := litStrip_len h6; simpa [litFrom] using this
              have h7l2 : (s5.dropWhile isWsChar).length ≤ s5.length := dropWhile_len_le _ _
              cases h8 : s7.dropWhile isWsChar with
              | nil => simp [h8] at h
              | cons q1 s9 =>
                simp only [h8] at h
                have h9l : s9.length < s7.length := by
                  have := dropWhile_len_le isWsChar s7
                  rw [h8] at this; simp at this; omega
                split at h
                · cases h10 : litStrip litEnvStatic s9 with
                  | none => simp [h10] at h
                  | some s10 =>
                    simp only [h10] at h
                    have h10l : s10.length + 12 = s9.length := by
                      have := litStrip_len h10; simpa [litEnvStatic] using this
                    cases h11 : (match litStrip litPrivate s10 with
                       | some x => some x
                       | none => litStrip litPublic s10) with
                    | none => simp [h11] at h
                    | some s11 =>
                      simp only [h11] at h
                      have h11l : s11.length + 6 ≤ s10.length := by
                        cases hp : litStrip litPrivate s10 with
                        | some x =>
                          rw [hp] at h11
                          have := litStrip_len hp
                          simp only [Option.some.injEq] at h11
                          subst h11
                          simp [litPrivate] at this
                          omega
                        | none =>
                          rw [hp] at h11
                          simp only at h11
                          have := litStrip_len h11
                          simp [litPublic] at this
                          omega
                      split at h
                      · exact absurd h (by simp)
                      · rename_i q2 s12
                        split at h
                        · rw [Option.some.injEq, Prod.mk.injEq] at h
                          have hr : r.length ≤ s12.length := by
                            rw [← h.2]
                            cases s12 with
                            | nil => simp
                            | cons e s13 =>
                              split
                              · rename_i s13x heq
                                injection heq with he hs
                                subst hs
                                simp
                              · exact le_refl _
                          have hq : (q2 :: s12).length = s12.length + 1 := by simp
                          omega
                        · exact absurd h (by simp)
                · exact absurd h (by simp)
      · exact absurd h (by simp)

theorem matchEnv_nil : matchEnv [] = none := rfl

theorem transformGo_congr :
    ∀ (fuel fuel2 : Nat) (s : List Char), s.length ≤ fuel → s.length ≤ fuel2 →
      transformGo fuel s = transformGo fuel2 s := by
  intro fuel
  induction fuel with
  | zero =>
    intro fuel2 s h h2
    have : s = [] := List.eq_nil_of_length_eq_zero (Nat.le_zero.mp h)
    subst this
    cases fuel2 <;> rfl
  | succ fuel ih =>
    intro fuel2 s h h2
    cases s with
    | nil => cases fuel2 <;> rfl
    | cons c cs =>
      cases fuel2 with
      | zero => simp at h2
      | succ f2 =>
        cases hm : matchEnv (c :: cs) with
        | some gr =>
          obtain ⟨g, r⟩ := gr
          have hlt := matchEnv_rest_lt hm
          simp only [List.length_cons] at h h2 hlt
          simp only [transformGo, hm]
          rw [ih f2 r (by omega) (by omega)]
        | none =>
          simp only [List.length_cons] at h h2
          simp only [transformGo, hm]
          rw [ih f2 cs (by omega) (by omega)]

theorem transformL_match {s g r : List Char} (h : matchEnv s = some (g, r)) :
    transformEnvImportsL s = envDestr g ++ transformEnvImportsL r := by
  cases s with
  | nil => rw [matchEnv_nil] at h; exact absurd h (by simp)
  | cons c cs =>
    have hlt := matchEnv_rest_lt h
    simp only [List.length_cons] at hlt
    unfold transformEnvImportsL
    simp only [List.length_cons, transformGo, h]
    rw [transformGo_congr cs.length r.length r (by omega) (by omega)]

theorem transformL_nomatch {c : Char} {cs : List Char} (h : matchEnv (c :: cs) = none) :
    transformEnvImportsL (c :: cs) = c :: transformEnvImportsL cs := by
  unfold transformEnvImportsL
  simp only [List.length_cons, transformGo, h]

/-- Whether the scan of `transformEnvImports` finds a match anywhere in `s`. -/
def hasEnvMatch : List Char → Bool
  | [] => false
  | c :: cs => (matchEnv (c :: cs)).isSome || hasEnvMatch cs

theorem transformL_of_no_match {s : List Char} (h : hasEnvMatch s = false) :
    transformEnvImportsL s = s := by
  induction s with
  | nil => rfl
  | cons c cs ih =>
    simp only [hasEnvMatch, Bool.or_eq_false_iff] at h
    rw [transformL_nomatch (Option.not_isSome_iff_eq_none.mp (by simp [h.1]))]
    rw [ih h.2]

/-! ## Identifier-shaped names and canonical environment-import statements -/

/-- Characters of a plain identifier (letters, digits, underscore).  Dollar
signs, though legal in JavaScript identifiers, are excluded so that the
absence of residual `$env/static/...` references can be stated. -/
def validIdentChar (c : Char) : Bool :=
  (65 ≤ c.toNat && c.toNat ≤ 90) || (97 ≤ c.toNat && c.toNat ≤ 122) ||
    (48 ≤ c.toNat && c.toNat ≤ 57) || c.toNat = 95

def ValidIdent (n : List Char) : Prop :=
  n ≠ [] ∧ ∀ c ∈ n, validIdentChar c = true

instance : DecidablePred ValidIdent := fun n => by
  unfold ValidIdent; infer_instance

theorem validIdentChar_ranges {c : Char} (h : validIdentChar c = true) :
    (65 ≤ c.toNat ∧ c.toNat ≤ 90) ∨ (97 ≤ c.toNat ∧ c.toNat ≤ 122) ∨
      (48 ≤ c.toNat ∧ c.toNat ≤ 57) ∨ c.toNat = 95 := by
  simp only [validIdentChar, Bool.or_eq_true, Bool.and_eq_true, decide_eq_true_eq] at h
  tauto

theorem validIdentChar_not_ws {c : Char} (h : validIdentChar c = true) :
    isWsChar c = false := by
  have hr := validIdentChar_ranges h
  by_contra hw
  simp only [Bool.not_eq_false, isWsChar, Bool.or_eq_true, decide_eq_true_eq] at hw
  have hsmall : c.toNat ≤ 32 := by
    rcases hw with ((((hc | hc) | hc) | hc) | hc) | hc <;> subst hc <;> decide
  omega

theorem validIdentChar_ne_of_toNat {c : Char} {d : Char} (h : validIdentChar c = true)
    (hd : ¬ ((65 ≤ d.toNat ∧ d.toNat ≤ 90) ∨ (97 ≤ d.toNat ∧ d.toNat ≤ 122) ∨
      (48 ≤ d.toNat ∧ d.toNat ≤ 57) ∨ d.toNat = 95)) : ¬ c = d := by
  intro he
  subst he
  exact hd (validIdentChar_ranges h)

theorem validIdentChar_ne_comma {c : Char} (h : validIdentChar c = true) : ¬ c = ',' :=
  validIdentChar_ne_of_toNat h (by decide)

theorem validIdentChar_ne_rbrace {c : Char} (h : validIdentChar c = true) : ¬ c = '\x7d' :=
  validIdentChar_ne_of_toNat h (by decide)

theorem validIdentChar_ne_dollar {c : Char} (h : validIdentChar c = true) : ¬ c = '$' :=
  validIdentChar_ne_of_toNat h (by decide)

/-! ## The capture group of a well-formed import list round-trips -/

theorem splitComma_ne_nil (l : List Char) : splitComma l ≠ [] := by
  cases l with
  | nil => simp [splitComma]
  | cons c cs =>
    simp only [splitComma]
    split
    · simp
    · split <;> simp

theorem dropWhile_all_false {p : Char → Bool} {l : List Char}
    (h : ∀ c ∈ l, p c = false) : l.dropWhile p = l := by
  cases l with
  | nil => rfl
  | cons c cs => rw [List.dropWhile_cons, h c (by simp)]; simp

theorem trimL_cons_ws {c : Char} {l : List Char} (h : isWsChar c = true) :
    trimL (c :: l) = trimL l := by
  simp only [trimL, List.dropWhile_cons, h, if_true]

theorem trimL_valid {n : List Char} (h : ∀ c ∈ n, validIdentChar c = true) :
    trimL n = n := by
  have hws : ∀ c ∈ n, isWsChar c = false := fun c hc => validIdentChar_not_ws (h c hc)
  unfold trimL
  rw [dropWhile_all_false hws]
  rw [dropWhile_all_false (fun c hc => hws c (List.mem_reverse.mp hc))]
  exact List.reverse_reverse n

theorem trimL_valid_pad {n : List Char} (hne : n ≠ [])
    (h : ∀ c ∈ n, validIdentChar c = true) : trimL (n ++ [' ']) = n := by
  have hws : ∀ c ∈ n, isWsChar c = false := fun c hc => validIdentChar_not_ws (h c hc)
  unfold trimL
  have h1 : (n ++ [' ']).dropWhile isWsChar = n ++ [' '] := by
    cases n with
    | nil => exact absurd rfl hne
    | cons c cs =>
      rw [List.cons_append, List.dropWhile_cons, hws c (by simp)]
      simp
  rw [h1]
  have h2 : (n ++ [' ']).reverse = ' ' :: n.reverse := by simp
  rw [h2, List.dropWhile_cons]
  have : isWsChar ' ' = true := by decide
  rw [this]
  simp only [if_true]
  rw [dropWhile_all_false (fun c hc => hws c (List.mem_reverse.mp hc))]
  exact List.reverse_reverse n

theorem splitComma_append_comma {a b : List Char} (h : ∀ c ∈ a, ¬ c = ',') :
    splitComma (a ++ ',' :: b) = a :: splitComma b := by
  induction a with
  | nil => simp [splitComma]
  | cons c cs ih =>
    have hc : ¬ c = ',' := h c (by simp)
    simp only [List.cons_append, splitComma, hc, if_false, List.append_eq]
    rw [ih (fun x hx => h x (by simp [hx]))]

theorem splitComma_no_comma {a : List Char} (h : ∀ c ∈ a, ¬ c = ',') :
    splitComma a = [a] := by
  induction a with
  | nil => rfl
  | cons c cs ih =>
    have hc : ¬ c = ',' := h c (by simp)
    simp only [splitComma, hc, if_false]
    rw [ih (fun x hx => h x (by simp [hx]))]

theorem envVarsOf_cons_sp (z : List Char) : envVarsOf (' ' :: z) = envVarsOf z := by
  unfold envVarsOf
  have hc : ¬ (' ' = ','):= by decide
  simp only [splitComma, hc, if_false]
  cases hz : splitComma z with
  | nil => exact absurd hz (splitComma_ne_nil z)
  | cons p ps =>
    simp only [List.map_cons, List.filter_cons]
    rw [trimL_cons_ws (by decide)]

theorem envVarsOf_valid_cons {n z : List Char} (hn : ValidIdent n) :
    envVarsOf (n ++ ',' :: z) = n :: envVarsOf z := by
  obtain ⟨hne, hv⟩ := hn
  unfold envVarsOf
  rw [splitComma_append_comma (fun c hc => validIdentChar_ne_comma (hv c hc))]
  simp only [List.map_cons, List.filter_cons]
  rw [trimL_valid hv]
  have : (!n.isEmpty) = true := by
    cases n with
    | nil => exact absurd rfl hne
    | cons c cs => simp
  rw [this]
  simp

theorem envVarsOf_valid_single {n : List Char} (hn : ValidIdent n) :
    envVarsOf (n ++ [' ']) = [n] := by
  obtain ⟨hne, hv⟩ := hn
  unfold envVarsOf
  have hcomma : ∀ c ∈ n ++ [' '], ¬ c = ',' := by
    intro c hc
    rcases List.mem_append.mp hc with h | h
    · exact validIdentChar_ne_comma (hv c h)
    · simp at h; subst h; decide
  rw [splitComma_no_comma hcomma]
  simp only [List.map_cons, List.map_nil, List.filter_cons, List.filter_nil]
  rw [trimL_valid_pad hne hv]
  have : (!n.isEmpty) = true := by
    cases n with
    | nil => exact absurd rfl hne
    | cons c cs => simp
  rw [this]
  simp

theorem envVarsOf_join {ns : List (List Char)} (hne : ns ≠ [])
    (hv : ∀ n ∈ ns, ValidIdent n) :
    envVarsOf (joinCommaSp ns ++ [' ']) = ns := by
  induction ns with
  | nil => exact absurd rfl hne
  | cons n ns ih =>
    cases ns with
    | nil =>
      simp only [joinCommaSp]
      exact envVarsOf_valid_single (hv n (by simp))
    | cons m ms =>
      have hj : joinCommaSp (n :: m :: ms) = n ++ ',' :: ' ' :: joinCommaSp (m :: ms) := rfl
      rw [hj]
      have : (n ++ ',' :: ' ' :: joinCommaSp (m :: ms)) ++ [' ']
          = n ++ ',' :: (' ' :: (joinCommaSp (m :: ms) ++ [' '])) := by simp
      rw [this]
      rw [envVarsOf_valid_cons (hv n (by simp))]
      rw [envVarsOf_cons_sp]
      rw [ih (by simp) (fun x hx => hv x (by simp [hx]))]

theorem joinCommaSp_mem {c : Char} {ns : List (List Char)} (h : c ∈ joinCommaSp ns) :
    (∃ n ∈ ns, c ∈ n) ∨ c = ',' ∨ c = ' ' := by
  induction ns with
  | nil => simp [joinCommaSp] at h
  | cons n ns ih =>
    cases ns with
    | nil =>
      simp only [joinCommaSp] at h
      exact Or.inl ⟨n, by simp, h⟩
    | cons m ms =>
      have hj : joinCommaSp (n :: m :: ms) = n ++ ',' :: ' ' :: joinCommaSp (m :: ms) := rfl
      rw [hj] at h
      rcases List.mem_append.mp h with h | h
      · exact Or.inl ⟨n, by simp, h⟩
      · simp only [List.mem_cons] at h
        rcases h with h | h | h
        · exact Or.inr (Or.inl h)
        · exact Or.inr (Or.inr h)
        · rcases ih h with ⟨x, hx, hcx⟩ | h
          · exact Or.inl ⟨x, by simp [hx], hcx⟩
          · exact Or.inr h

def specPrivate : List Char := litEnvStatic ++ litPrivate
def specPublic : List Char := litEnvStatic ++ litPublic

/-- A canonical environment-import statement
`import { n1, n2, … } from '<spec>';` followed by nothing else. -/
def envImportStmt (ns : List (List Char)) (spec : List Char) : List Char :=
  litImport ++ ' ' :: '\x7b' :: ' ' ::
    (joinCommaSp ns ++ ' ' :: '\x7d' :: ' ' ::
      (litFrom ++ ' ' :: '\x27' :: (spec ++ '\x27' :: [';'])))

/-- The destructuring statement `const { n1, n2, … } = process.env;`. -/
def envDestructuring (ns : List (List Char)) : List Char :=
  constOpen ++ joinCommaSp ns ++ constClose

theorem litStrip_private_of_public (x : List Char) :
    litStrip litPrivate (litPublic ++ x) = none := by
  simp [litPrivate, litPublic, litStrip]

theorem matchEnv_stmt {ns : List (List Char)} {spec rest : List Char}
    (hne : ns ≠ []) (hv : ∀ n ∈ ns, ValidIdent n)
    (hspec : spec = specPrivate ∨ spec = specPublic) :
    matchEnv (envImportStmt ns spec ++ rest)
      = some (joinCommaSp ns ++ [' '], rest) := by
  have hA7d : ∀ c ∈ ' ' :: (joinCommaSp ns ++ [' ']),
      (fun c => !(c = '\x7d')) c = true := by
    intro c hc
    rcases List.mem_cons.mp hc with h | h
    · subst h; decide
    · rcases List.mem_append.mp h with h | h
      · rcases joinCommaSp_mem h with ⟨n, hn, hcn⟩ | h | h
        · simpa using validIdentChar_ne_rbrace ((hv n hn).2 c hcn)
        · subst h; decide
        · subst h; decide
      · simp only [List.mem_singleton] at h; subst h; decide
  have hAhead : (joinCommaSp ns ++ [' ']).dropWhile isWsChar
      = joinCommaSp ns ++ [' '] := by
    cases ns with
    | nil => exact absurd rfl hne
    | cons n ns2 =>
      obtain ⟨hne2, hv2⟩ := hv n (by simp)
      cases n with
      | nil => exact absurd rfl hne2
      | cons c0 n2 =>
        have hj : joinCommaSp ((c0 :: n2) :: ns2)
            = c0 :: (n2 ++ match ns2 with
              | [] => []
              | _ :: _ => ',' :: ' ' :: joinCommaSp ns2) := by
          cases ns2 <;> simp [joinCommaSp]
        rw [hj, List.cons_append, List.dropWhile_cons,
          validIdentChar_not_ws (hv2 c0 (by simp))]
        simp
  set A := joinCommaSp ns with hAdef
  set B := ' ' :: (litFrom ++ ' ' :: '\x27' :: (spec ++ '\x27' :: [';'])) with hBdef
  have hshape : envImportStmt ns spec ++ rest
      = litImport ++ ' ' :: '\x7b' ::
          ((' ' :: (A ++ [' '])) ++ '\x7d' ::
            (' ' :: (litFrom ++ ' ' :: '\x27' :: (spec ++ '\x27' :: ';' :: rest)))) := by
    simp [envImportStmt]
  have hstrip1 : litStrip litImport (envImportStmt ns spec ++ rest)
      = some (' ' :: '\x7b' ::
          ((' ' :: (A ++ [' '])) ++ '\x7d' ::
            (' ' :: (litFrom ++ ' ' :: '\x27' :: (spec ++ '\x27' :: ';' :: rest))))) := by
    rw [hshape, litStrip_self]
  have hdrop1 : (' ' :: '\x7b' ::
      ((' ' :: (A ++ [' '])) ++ '\x7d' ::
        (' ' :: (litFrom ++ ' ' :: '\x27' :: (spec ++ '\x27' :: ';' :: rest))))).dropWhile
          isWsChar
      = '\x7b' :: ((' ' :: (A ++ [' '])) ++ '\x7d' ::
          (' ' :: (litFrom ++ ' ' :: '\x27' :: (spec ++ '\x27' :: ';' :: rest)))) := by
    rw [List.dropWhile_cons]
    have h1 : isWsChar ' ' = true := by decide
    have h2 : isWsChar '\x7b' = false := by decide
    rw [h1, if_pos rfl, List.dropWhile_cons, h2]
    simp
  have htake : (((' ' :: (A ++ [' '])) ++ '\x7d' ::
      (' ' :: (litFrom ++ ' ' :: '\x27' :: (spec ++ '\x27' :: ';' :: rest))))).takeWhile
        (fun c => !(c = '\x7d'))
      = ' ' :: (A ++ [' ']) := by
    rw [takeWhile_append_all hA7d]
    rw [List.takeWhile_cons]
    simp
  have hdrop2 : (((' ' :: (A ++ [' '])) ++ '\x7d' ::
      (' ' :: (litFrom ++ ' ' :: '\x27' :: (spec ++ '\x27' :: ';' :: rest))))).dropWhile
        (fun c => !(c = '\x7d'))
      = '\x7d' :: (' ' :: (litFrom ++ ' ' :: '\x27' :: (spec ++ '\x27' :: ';' :: rest))) := by
    rw [dropWhile_append_all hA7d]
    rw [List.dropWhile_cons]
    simp
  have hdrop3 : (' ' :: (litFrom ++ ' ' :: '\x27' ::
      (spec ++ '\x27' :: ';' :: rest))).dropWhile isWsChar
      = litFrom ++ ' ' :: '\x27' :: (spec ++ '\x27' :: ';' :: rest) := by
    rw [List.dropWhile_cons]
    have h1 : isWsChar ' ' = true := by decide
    rw [h1, if_pos rfl]
    have : litFrom ++ ' ' :: '\x27' :: (spec ++ '\x27' :: ';' :: rest)
        = 'f' :: ('r' :: 'o' :: 'm' :: (' ' :: '\x27' :: (spec ++ '\x27' :: ';' :: rest))) := by
      simp [litFrom]
    rw [this, List.dropWhile_cons]
    have h2 : isWsChar 'f' = false := by decide
    rw [h2]
    simp [litFrom]
  have hstrip2 : litStrip litFrom
      (litFrom ++ ' ' :: '\x27' :: (spec ++ '\x27' :: ';' :: rest))
      = some (' ' :: '\x27' :: (spec ++ '\x27' :: ';' :: rest)) := litStrip_self _ _
  have hdrop4 : (' ' :: '\x27' :: (spec ++ '\x27' :: ';' :: rest)).dropWhile isWsChar
      = '\x27' :: (spec ++ '\x27' :: ';' :: rest) := by
    rw [List.dropWhile_cons]
    have h1 : isWsChar ' ' = true := by decide
    have h2 : isWsChar '\x27' = false := by decide
    rw [h1, if_pos rfl, List.dropWhile_cons, h2]
    simp
  have hbg : braceGroup (' ' :: (A ++ [' '])) = A ++ [' '] := by
    unfold braceGroup
    have h1 : (' ' :: (A ++ [' '])).dropWhile isWsChar = A ++ [' '] := by
      rw [List.dropWhile_cons]
      have hsp : isWsChar ' ' = true := by decide
      rw [hsp, if_pos rfl, hAhead]
    simp only [h1]
    have h2 : (A ++ [' ']).isEmpty = false := by
      cases A <;> simp
    simp [h2]
  unfold matchEnv
  rw [hstrip1]
  rcases hspec with hsp | hsp <;> subst hsp
  · have hs9 : specPrivate ++ '\x27' :: ';' :: rest
        = litEnvStatic ++ (litPrivate ++ '\x27' :: ';' :: rest) := by
      simp [specPrivate]
    simp only [hdrop1, if_true]
    simp only [htake, hdrop2, List.isEmpty_cons, Bool.false_eq_true, if_false]
    simp only [hdrop3, hstrip2, hdrop4, isQuoteChar, if_true]
    simp only [hs9, litStrip_self, hbg, if_true]
    simp
  · have hs9 : specPublic ++ '\x27' :: ';' :: rest
        = litEnvStatic ++ (litPublic ++ '\x27' :: ';' :: rest) := by
      simp [specPublic]
    simp only [hdrop1, if_true]
    simp only [htake, hdrop2, List.isEmpty_cons, Bool.false_eq_true, if_false]
    simp only [hdrop3, hstrip2, hdrop4, isQuoteChar, if_true]
    simp only [hs9, litStrip_private_of_public, litStrip_self, hbg, if_true]
    simp

theorem transform_stmt {ns : List (List Char)} {spec rest : List Char}
    (hne : ns ≠ []) (hv : ∀ n ∈ ns, ValidIdent n)
    (hspec : spec = specPrivate ∨ spec = specPublic) :
    transformEnvImportsL (envImportStmt ns spec ++ rest)
      = envDestructuring ns ++ transformEnvImportsL rest := by
  rw [transformL_match (matchEnv_stmt hne hv hspec)]
  unfold envDestr envDestructuring
  rw [envVarsOf_join hne hv]

/-- Whether `pat` occurs as a contiguous substring of the input. -/
def occursIn (pat : List Char) : List Char → Bool
  | [] => (litStrip pat []).isSome
  | c :: cs => (litStrip pat (c :: cs)).isSome || occursIn pat cs

theorem occursIn_mem {c : Char} {ps s : List Char} (h : occursIn (c :: ps) s = true) :
    c ∈ s := by
  induction s with
  | nil => simp [occursIn, litStrip] at h
  | cons d cs ih =>
    simp only [occursIn, Bool.or_eq_true] at h
    rcases h with h | h
    · simp only [litStrip] at h
      by_cases hdc : d = c
      · simp [hdc]
      · rw [if_neg hdc] at h; simp at h
    · exact List.mem_cons_of_mem d (ih h)

theorem envDestructuring_no_dollar {ns : List (List Char)}
    (hv : ∀ n ∈ ns, ValidIdent n) :
    occursIn litEnvStatic (envDestructuring ns) = false := by
  by_contra hocc
  simp only [Bool.not_eq_false] at hocc
  have hmem : '$' ∈ envDestructuring ns := occursIn_mem (by simpa [litEnvStatic] using hocc)
  unfold envDestructuring at hmem
  rcases List.mem_append.mp hmem with h | h
  · rcases List.mem_append.mp h with h | h
    · revert h; decide
    · rcases joinCommaSp_mem h with ⟨n, hn, hcn⟩ | h | h
      · exact validIdentChar_ne_dollar ((hv n hn).2 '$' hcn) rfl
      · simp at h
      · simp at h
  · revert h; decide

/-- C3 (functional_correctness): the environment-import transformer replaces a
recognized import from either fixed environment specifier by a destructuring
read from `process.env` that preserves the exact list (set and order) of the
imported identifier names, drops the import statement entirely — no reference
to the `$env/static/...` specifier remains in the emitted replacement — and
returns any text in which the scan finds no environment-import match (in
particular any other import statement) unchanged. -/
theorem C3_transformEnvImports (ns : List (List Char)) (spec : List Char)
    (rest : String) (hne : ns ≠ []) (hv : ∀ n ∈ ns, ValidIdent n)
    (hspec : spec = specPrivate ∨ spec = specPublic) :
    transformEnvImports (String.mk (envImportStmt ns spec ++ rest.data))
        = String.mk (envDestructuring ns) ++ transformEnvImports rest
      ∧ (∀ s : String, hasEnvMatch s.data = false → transformEnvImports s = s)
      ∧ occursIn litEnvStatic (envDestructuring ns) = false := by
  refine ⟨?_, ?_, envDestructuring_no_dollar hv⟩
  · show String.mk (transformEnvImportsL (envImportStmt ns spec ++ rest.data)) = _
    rw [transform_stmt hne hv hspec]
    rfl
  · intro s hs
    show String.mk (transformEnvImportsL s.data) = s
    rw [transformL_of_no_match hs]

/-- Witness for C3 at the specification's own test vector: a file importing
`{ DATABASE_URL }` from the private specifier, with an unrelated import left
over in the rest of the file. -/
theorem C3_transformEnvImports_witness :
    ((["DATABASE_URL".data] : List (List Char)) ≠ []
        ∧ (∀ n ∈ [("DATABASE_URL".data)], ValidIdent n))
      ∧ (transformEnvImports
            (String.mk (envImportStmt ["DATABASE_URL".data] specPrivate
              ++ "\nimport \x7b A \x7d from \x27./other\x27;".data))
          = String.mk (envDestructuring ["DATABASE_URL".data])
              ++ transformEnvImports "\nimport \x7b A \x7d from \x27./other\x27;"
        ∧ (∀ s : String, hasEnvMatch s.data = false → transformEnvImports s = s)
        ∧ occursIn litEnvStatic (envDestructuring ["DATABASE_URL".data]) = false) :=
  ⟨⟨by decide, by decide⟩,
    C3_transformEnvImports ["DATABASE_URL".data] specPrivate
      "\nimport \x7b A \x7d from \x27./other\x27;" (by decide) (by decide) (Or.inl rfl)⟩

/-! ## Model of the parsed syntax tree and the declaration extractor

The TypeScript parser (`@typescript-eslint/typescript-estree`) is an external
library; its output is modelled by the node shapes below, restricted to the
node kinds the extractor of `src/lib/utils/parser.ts` inspects.  The source's
generic child-visiting recursion is equivalent, on these programs, to a fold
over the top-level statement list, because export declarations are top-level
statements and the elided child nodes (function bodies, parameter patterns)
cannot contain further export declarations. -/

inductive ParamNode where
  | identP (name : String) ( typeAnnotation : Option (Nat × Nat)) (optional : Bool)
  | otherP
deriving DecidableEq

inductive SpecNode where
  | importSpec (localName : String)
  | otherSpec
deriving DecidableEq

inductive DeclNode where
  | functionDecl (id : Option String) (isAsync : Bool) (params : List ParamNode)
      (returnType : Option (Nat × Nat))
  | otherDecl
deriving DecidableEq

inductive StmtNode where
  | importDecl (source : String) (specifiers : List SpecNode)
  | exportNamedDecl (decl : Option DeclNode) (startPos : Nat)
  | otherStmt
deriving DecidableEq

structure CommentNode where
  isBlock : Bool
  value : String
  endPos : Nat
deriving DecidableEq

structure ProgramNode where
  body : List StmtNode
  comments : List CommentNode
deriving DecidableEq

structure ParameterInfo where
  name : String
  type : Option String
  optional : Bool
deriving DecidableEq

structure FunctionMetadata where
  isAsync : Bool
  parameters : List ParameterInfo
  returnType : Option String
  docstring : Option String
deriving DecidableEq

structure ExportedFunction where
  name : String
  path : String
  exportName : String
  metadata : FunctionMetadata
  envVars : Option (List String)
deriving DecidableEq

/-- `content.slice(a, b)`. -/
def sliceL (content : List Char) (a b : Nat) : List Char :=
  (content.take b).drop a

/-- `.replace(/^:\s*/, '')` applied to a sliced type annotation. -/
def stripTypeColon : List Char → List Char
  | ':' :: r => r.dropWhile isWsChar
  | s => s

def typeTextAt (content : String) (r : Nat × Nat) : String :=
  String.mk (stripTypeColon (sliceL content.data r.1 r.2))

/-- `getDocstringsFromAST`: block comments keyed by their end position,
trimmed; later entries overwrite earlier ones as in a JavaScript `Map`. -/
def getDocstringsFromAST (ast : ProgramNode) : List (Nat × String) :=
  (ast.comments.filter (·.isBlock)).map
    (fun c => (c.endPos, String.mk (trimL c.value.data)))

def docLookup (m : List (Nat × String)) (k : Nat) : Option String :=
  (m.reverse.find? (fun p => p.1 = k)).map (·.2)

/-- `extractParameterInfo` of `src/lib/utils/parser.ts` (lines 43-60). -/
def extractParameterInfo (params : List ParamNode) (content : String) :
    List ParameterInfo :=
  params.map fun p =>
    match p with
    | .identP nm ta opt =>
      { name := nm, type := ta.map (typeTextAt content), optional := opt }
    | .otherP => { name := "unknown", type := none, optional := false }

/-- One step of the `visit` recursion of `extractExportedFunctions`
(`src/lib/utils/parser.ts` lines 62-109): only an `ExportNamedDeclaration`
holding a named `FunctionDeclaration` contributes an item. -/
def visitStmt (filePath content : String) (docstrings : List (Nat × String))
    (envVars : List String) : StmtNode → List ExportedFunction
  | .exportNamedDecl (some (.functionDecl (some nm) isAsync ps ret)) startPos =>
      [{ name := nm, path := filePath, exportName := nm,
         metadata :=
           { isAsync := isAsync,
             parameters := extractParameterInfo ps content,
             returnType := ret.map (typeTextAt content),
             docstring := docLookup docstrings (startPos - 1) },
         envVars := if envVars.isEmpty then none else some envVars }]
  | _ => []

def extractExportedFunctions (ast : ProgramNode) (filePath content : String)
    (docstrings : List (Nat × String)) (envVars : List String) :
    List ExportedFunction :=
  ast.body.flatMap (visitStmt filePath content docstrings envVars)

/-- Insertion into a JavaScript `Set` (insertion-ordered, deduplicating). -/
def addUniq (l : List String) (x : String) : List String :=
  if x ∈ l then l else l ++ [x]

def addSpecs (acc : List String) (specs : List SpecNode) : List String :=
  specs.foldl
    (fun a sp =>
      match sp with
      | .importSpec nm => addUniq a nm
      | .otherSpec => a) acc

/-- `extractEnvironmentVars` of `src/lib/utils/parser.ts` (lines 24-41): the
local names of named imports from the two fixed environment specifiers,
collected over the top-level statements into an insertion-ordered set. -/
def extractEnvironmentVars (ast : ProgramNode) : List String :=
  ast.body.foldl
    (fun acc st =>
      match st with
      | .importDecl src specs =>
        if src = "$env/static/private" ∨ src = "$env/static/public" then
          addSpecs acc specs
        else acc
      | _ => acc) []

structure ParseResult where
  exports : List ExportedFunction
  envVars : List String
  transformedContent : String
deriving DecidableEq

/-- `parseFile` of `src/lib/utils/parser.ts` (lines 384-412): the external
parser is an oracle; a file it cannot parse yields empty results plus a
logged error, otherwise the extractors and the environment-import transform
run on the parsed tree.  The returned string list models the `console.error`
log. -/
def parseFile (parse : String → Option ProgramNode) (content filePath : String) :
    ParseResult × List String :=
  match parse content with
  | some ast =>
    ({ exports := extractExportedFunctions ast filePath content
          (getDocstringsFromAST ast) (extractEnvironmentVars ast),
       envVars := extractEnvironmentVars ast,
       transformedContent := transformEnvImports content }, [])
  | none =>
    ({ exports := [], envVars := [], transformedContent := content },
      ["[triggerkit] Error parsing file " ++ filePath])

/-- The per-file loop of a scan pass: each candidate file is parsed
independently. -/
def scanParse (parse : String → Option ProgramNode)
    (files : List (String × String)) : List (ParseResult × List String) :=
  files.map (fun fc => parseFile parse fc.2 fc.1)

/-! ## C4: extraction of one async exported function -/

def emailContent : String :=
  "export async function sendWelcomeEmail(userId: string) \x7b\n  return userId;\n\x7d\n"

/-- The tree `@typescript-eslint/typescript-estree` produces for
`emailContent`: one export of an async function declaration whose single
parameter `userId` carries the type annotation `: string` at range
`[45, 53)` of the file text. -/
def emailAst : ProgramNode :=
  { body := [ .exportNamedDecl
      (some (.functionDecl (some "sendWelcomeEmail") true
        [.identP "userId" (some (45, 53)) false] none)) 0 ],
    comments := [] }

/-- C4 (functional_correctness): extracting a file whose only export is
`export async function sendWelcomeEmail(userId: string)` yields exactly one
function item named `sendWelcomeEmail` with `isAsync = true` and the single
parameter `{name := "userId", optional := false}` (whose extracted type text
is `"string"`), no environment variables, and the file text otherwise
unchanged. -/
theorem C4_extract_sendWelcomeEmail :
    parseFile (fun c => if c = emailContent then some emailAst else none)
        emailContent "src/lib/email.ts"
      = ({ exports := [{ name := "sendWelcomeEmail", path := "src/lib/email.ts",
                         exportName := "sendWelcomeEmail",
                         metadata :=
                           { isAsync := true,
                             parameters :=
                               [{ name := "userId", type := some "string",
                                  optional := false }],
                             returnType := none, docstring := none },
                         envVars := none }],
           envVars := [], transformedContent := emailContent }, []) := by
  decide

/-! ## C5: environment imports feed `envVars`, deduplicated, and never items -/

theorem addUniq_mem_self (l : List String) (x : String) : x ∈ addUniq l x := by
  unfold addUniq
  split
  · assumption
  · simp

theorem addUniq_mem_mono {l : List String} {y : String} (x : String) (h : y ∈ l) :
    y ∈ addUniq l x := by
  unfold addUniq
  split
  · exact h
  · simp [h]

theorem addUniq_nodup {l : List String} (x : String) (h : l.Nodup) :
    (addUniq l x).Nodup := by
  unfold addUniq
  split
  · exact h
  · next hx => simpa [List.nodup_append, h] using hx

theorem addSpecs_mem_mono {acc : List String} {y : String} (specs : List SpecNode)
    (h : y ∈ acc) : y ∈ addSpecs acc specs := by
  induction specs generalizing acc with
  | nil => exact h
  | cons sp rest ih =>
    cases sp with
    | importSpec nm => exact ih (addUniq_mem_mono nm h)
    | otherSpec => exact ih h

theorem addSpecs_mem_of (nm : String) :
    ∀ (specs : List SpecNode) (acc : List String),
      SpecNode.importSpec nm ∈ specs → nm ∈ addSpecs acc specs := by
  intro specs
  induction specs with
  | nil => intro acc h; simp at h
  | cons sp rest ih =>
    intro acc h
    rcases List.mem_cons.mp h with heq | hmem
    · subst heq
      exact addSpecs_mem_mono rest (addUniq_mem_self acc nm)
    · cases sp with
      | importSpec nm2 => exact ih _ hmem
      | otherSpec => exact ih _ hmem

theorem addSpecs_nodup {acc : List String} (specs : List SpecNode)
    (h : acc.Nodup) : (addSpecs acc specs).Nodup := by
  induction specs generalizing acc with
  | nil => exact h
  | cons sp rest ih =>
    cases sp with
    | importSpec nm => exact ih (addUniq_nodup nm h)
    | otherSpec => exact ih h

def envStep (acc : List String) (st : StmtNode) : List String :=
  match st with
  | .importDecl src specs =>
    if src = "$env/static/private" ∨ src = "$env/static/public" then
      addSpecs acc specs
    else acc
  | _ => acc

theorem extractEnvironmentVars_eq (ast : ProgramNode) :
    extractEnvironmentVars ast = ast.body.foldl envStep [] := rfl

theorem envStep_mem_mono {acc : List String} {y : String} (st : StmtNode)
    (h : y ∈ acc) : y ∈ envStep acc st := by
  cases st with
  | importDecl src specs =>
    show y ∈ if src = "$env/static/private" ∨ src = "$env/static/public" then
      addSpecs acc specs else acc
    split
    · exact addSpecs_mem_mono specs h
    · exact h
  | exportNamedDecl d s => exact h
  | otherStmt => exact h

theorem envFold_mem_mono {body : List StmtNode} {acc : List String} {y : String}
    (h : y ∈ acc) : y ∈ body.foldl envStep acc := by
  induction body generalizing acc with
  | nil => exact h
  | cons st rest ih => exact ih (envStep_mem_mono st h)

theorem envFold_nodup (body : List StmtNode) {acc : List String} (h : acc.Nodup) :
    (body.foldl envStep acc).Nodup := by
  induction body generalizing acc with
  | nil => exact h
  | cons st rest ih =>
    apply ih
    cases st with
    | importDecl src specs =>
      show (if src = "$env/static/private" ∨ src = "$env/static/public" then
        addSpecs acc specs else acc).Nodup
      split
      · exact addSpecs_nodup specs h
      · exact h
    | exportNamedDecl d s => exact h
    | otherStmt => exact h

/-- The file imports `nm` from one of the two fixed environment specifiers. -/
def importsEnvVar (body : List StmtNode) (nm : String) : Prop :=
  ∃ src specs, StmtNode.importDecl src specs ∈ body ∧
    (src = "$env/static/private" ∨ src = "$env/static/public") ∧
    SpecNode.importSpec nm ∈ specs

theorem envFold_mem_of {nm : String} :
    ∀ (body : List StmtNode), importsEnvVar body nm →
      ∀ (acc : List String), nm ∈ body.foldl envStep acc := by
  intro body
  induction body with
  | nil => intro h acc; obtain ⟨src, specs, hmem, hcond⟩ := h; simp at hmem
  | cons st rest ih =>
    intro h acc
    obtain ⟨src, specs, hmem, hsrc, hspec⟩ := h
    rcases List.mem_cons.mp hmem with heq | hmem2
    · subst heq
      show nm ∈ List.foldl envStep (envStep acc (StmtNode.importDecl src specs)) rest
      apply envFold_mem_mono
      show nm ∈ if src = "$env/static/private" ∨ src = "$env/static/public" then
        addSpecs acc specs else acc
      rw [if_pos hsrc]
      exact addSpecs_mem_of nm specs acc hspec
    · exact ih ⟨src, specs, hmem2, hsrc, hspec⟩ _

def dbUrlFileBody : List StmtNode :=
  [ .importDecl "$env/static/private" [.importSpec "DATABASE_URL"] ]

def dbUrlAst : ProgramNode := { body := dbUrlFileBody, comments := [] }

/-- C5 (functional_correctness): every name imported from one of the two
fixed environment specifiers appears in the extractor's `envVars` result,
that result is duplicate-free for every tree, no item is ever extracted from
an import declaration (a file of import statements yields no items), and in
particular a file importing only `{ DATABASE_URL }` from the private
specifier yields `envVars = ["DATABASE_URL"]` and no items. -/
theorem C5_extractEnvironmentVars (ast : ProgramNode) (nm : String)
    (h : importsEnvVar ast.body nm) :
    nm ∈ extractEnvironmentVars ast
      ∧ (∀ ast2 : ProgramNode, (extractEnvironmentVars ast2).Nodup)
      ∧ (∀ (body : List StmtNode) (cs : List CommentNode) (fp c : String)
          (ds : List (Nat × String)) (ev : List String),
          (∀ st ∈ body, ∃ src specs, st = .importDecl src specs) →
          extractExportedFunctions ⟨body, cs⟩ fp c ds ev = [])
      ∧ extractEnvironmentVars dbUrlAst = ["DATABASE_URL"]
      ∧ extractExportedFunctions dbUrlAst "src/lib/db.ts" "" [] ["DATABASE_URL"] = [] := by
  refine ⟨envFold_mem_of ast.body h [], fun ast2 => envFold_nodup ast2.body List.nodup_nil,
    ?_, by decide, by decide⟩
  intro body cs fp c ds ev hall
  induction body with
  | nil => rfl
  | cons st rest ih =>
    obtain ⟨src, specs, hst⟩ := hall st (by simp)
    subst hst
    show visitStmt fp c ds ev (.importDecl src specs)
        ++ extractExportedFunctions ⟨rest, cs⟩ fp c ds ev = []
    rw [ih (fun st2 hst2 => hall st2 (by simp [hst2]))]
    rfl

/-- Witness for C5 at the `DATABASE_URL` file. -/
theorem C5_extractEnvironmentVars_witness :
    importsEnvVar dbUrlAst.body "DATABASE_URL"
      ∧ "DATABASE_URL" ∈ extractEnvironmentVars dbUrlAst :=
  ⟨⟨"$env/static/private", [.importSpec "DATABASE_URL"], by decide, by decide, by decide⟩,
    (C5_extractEnvironmentVars dbUrlAst "DATABASE_URL"
      ⟨"$env/static/private", [.importSpec "DATABASE_URL"], by decide, by decide,
        by decide⟩).1⟩

/-- C9 (error_handling): a file the parser cannot parse at all yields a
result with empty `exports` and empty `envVars` (and the untouched content)
plus a logged warning, and within a scan pass the failure is confined to that
file: the results for every other file of the pass are exactly what they are
when processed on their own. -/
theorem C9_parse_failure (parse : String → Option ProgramNode)
    (content filePath : String) (h : parse content = none) :
    parseFile parse content filePath
        = ({ exports := [], envVars := [], transformedContent := content },
           ["[triggerkit] Error parsing file " ++ filePath])
      ∧ (∀ pre post : List (String × String),
          scanParse parse (pre ++ (filePath, content) :: post)
            = scanParse parse pre
                ++ ({ exports := [], envVars := [], transformedContent := content },
                    ["[triggerkit] Error parsing file " ++ filePath])
                  :: scanParse parse post) := by
  have h1 : parseFile parse content filePath
      = ({ exports := [], envVars := [], transformedContent := content },
         ["[triggerkit] Error parsing file " ++ filePath]) := by
    simp [parseFile, h]
  refine ⟨h1, fun pre post => ?_⟩
  simp only [scanParse, List.map_append, List.map_cons]
  rw [h1]

/-- Witness for C9: a parser oracle that rejects everything, one malformed
file between two others. -/
theorem C9_parse_failure_witness :
    ((fun _ : String => (none : Option ProgramNode)) "se)(rp" = none)
      ∧ (parseFile (fun _ => none) "se)(rp" "src/lib/bad.ts"
          = ({ exports := [], envVars := [], transformedContent := "se)(rp" },
             ["[triggerkit] Error parsing file " ++ "src/lib/bad.ts"])
        ∧ (∀ pre post : List (String × String),
            scanParse (fun _ => none) (pre ++ ("src/lib/bad.ts", "se)(rp") :: post)
              = scanParse (fun _ => none) pre
                  ++ ({ exports := [], envVars := [],
                        transformedContent := "se)(rp" },
                      ["[triggerkit] Error parsing file " ++ "src/lib/bad.ts"])
                    :: scanParse (fun _ => none) post)) :=
  ⟨rfl, C9_parse_failure (fun _ => none) "se)(rp" "src/lib/bad.ts" rfl⟩

/-! ## The module synthesizer (`src/lib/utils/generator.ts`)

`generateFunctionsModule` builds the virtual module text from the aggregate
list of exported functions; the `functions` introspection object is rendered
through `JSON.stringify(functionMap, null, 2)`, modelled below for the fixed
shape of the map (ASCII-printable content; the rare `\uXXXX` escapes for
exotic control characters are not needed for any input considered here). -/

def joinSep (sep : String) : List String → String
  | [] => ""
  | [x] => x
  | x :: xs => x ++ sep ++ joinSep sep xs

def joinNl (l : List String) : String := joinSep "\n" l

def indentSp (n : Nat) : String := String.mk (List.replicate n ' ')

def jsonEscapeChar (c : Char) : List Char :=
  if c = '"' then ['\\', '"']
  else if c = '\\' then ['\\', '\\']
  else if c = '\n' then ['\\', 'n']
  else if c = '\t' then ['\\', 't']
  else if c = '\r' then ['\\', 'r']
  else if c = '\x08' then ['\\', 'b']
  else if c = '\x0c' then ['\\', 'f']
  else [c]

def jsonStrLit (s : String) : String :=
  "\"" ++ String.mk (s.data.flatMap jsonEscapeChar) ++ "\""

def jsonBool (b : Bool) : String := if b then "true" else "false"

def jsonObjFmt (ind : Nat) (fields : List (String × String)) : String :=
  match fields with
  | [] => "\x7b\x7d"
  | _ => "\x7b\n"
      ++ joinSep ",\n"
        (fields.map (fun f => indentSp (ind + 2) ++ jsonStrLit f.1 ++ ": " ++ f.2))
      ++ "\n" ++ indentSp ind ++ "\x7d"

def jsonArrFmt (ind : Nat) (items : List String) : String :=
  match items with
  | [] => "[]"
  | _ => "[\n" ++ joinSep ",\n" (items.map (fun it => indentSp (ind + 2) ++ it))
      ++ "\n" ++ indentSp ind ++ "]"

def jsonParamFmt (ind : Nat) (p : ParameterInfo) : String :=
  jsonObjFmt ind
    ([("name", jsonStrLit p.name)]
      ++ (match p.type with | some t => [("type", jsonStrLit t)] | none => [])
      ++ [("optional", jsonBool p.optional)])

def jsonMetadataFmt (ind : Nat) (m : FunctionMetadata) : String :=
  jsonObjFmt ind
    ([("isAsync", jsonBool m.isAsync),
      ("parameters",
        jsonArrFmt (ind + 2) (m.parameters.map (jsonParamFmt (ind + 4))))]
      ++ (match m.returnType with | some t => [("returnType", jsonStrLit t)] | none => [])
      ++ (match m.docstring with | some t => [("docstring", jsonStrLit t)] | none => []))

def jsonEntryFmt (ind : Nat) (e : FunctionMetadata × String) : String :=
  jsonObjFmt ind [("metadata", jsonMetadataFmt (ind + 2) e.1), ("path", jsonStrLit e.2)]

def jsonFunctionMap (m : List (String × FunctionMetadata × String)) : String :=
  jsonObjFmt 0 (m.map (fun e => (e.1, jsonEntryFmt 2 e.2)))

/-- JavaScript object property assignment `acc[k] = v`: an existing key keeps
its insertion position and is overwritten, a new key is appended. -/
def mapSet (m : List (String × FunctionMetadata × String)) (k : String)
    (v : FunctionMetadata × String) : List (String × FunctionMetadata × String) :=
  if m.any (fun e => e.1 = k) then
    m.map (fun e => if e.1 = k then (k, v) else e)
  else m ++ [(k, v)]

def importLine (f : ExportedFunction) : String :=
  "import \x7b " ++ f.exportName ++ " \x7d from \x27" ++ f.path ++ "\x27;"

def exportLine (f : ExportedFunction) : String :=
  "export const " ++ f.name ++ " = " ++ f.exportName ++ ";"

def exportLines (functions : List ExportedFunction) : List String :=
  functions.map exportLine

/-- `generateFunctionsModule` of `src/lib/utils/generator.ts` (lines 9-41). -/
def generateFunctionsModule (functions : List ExportedFunction) : String :=
  "\n  " ++ joinNl (functions.map importLine)
    ++ "\n  \n  " ++ joinNl (exportLines functions)
    ++ "\n  \n  export const functions = "
    ++ jsonFunctionMap
        (functions.foldl (fun acc f => mapSet acc f.name (f.metadata, f.path)) [])
    ++ ";\n  \n  export function getFunction(name: string) \x7b\n    return functions[name];\n  \x7d\n"

/-- `generateEnvImports` of the vite-plugin variant (part of the load path
that prepends discovered environment variables): deduplicate, drop empties,
destructure from `process.env`. -/
def generateEnvImports (vs : List String) : String :=
  match (vs.foldl addUniq []).filter (fun v => ¬ v = "") with
  | [] => ""
  | uniqueVars => "const \x7b " ++ joinSep ", " uniqueVars ++ " \x7d = process.env;\n\n"

/-- C2 (security_hyperproperties): module synthesis is deterministic — it is
a pure function of the aggregate export list and the environment-variable
list, so two synthesis runs on identical inputs produce byte-identical
module text. -/
theorem C2_synthesis_deterministic (fns fns2 : List ExportedFunction)
    (vars vars2 : List String) (h1 : fns = fns2) (h2 : vars = vars2) :
    generateEnvImports vars ++ generateFunctionsModule fns
        = generateEnvImports vars2 ++ generateFunctionsModule fns2
      ∧ generateFunctionsModule fns = generateFunctionsModule fns2 := by
  subst h1
  subst h2
  exact ⟨rfl, rfl⟩

/-- Witness for C2: two runs over the same one-function aggregate and the
same environment-variable set. -/
theorem C2_synthesis_deterministic_witness :
    ([({ name := "sendWelcomeEmail", path := "src/lib/email.ts",
         exportName := "sendWelcomeEmail",
         metadata := { isAsync := true,
                       parameters := [{ name := "userId", type := some "string",
                                        optional := false }],
                       returnType := none, docstring := none },
         envVars := none } : ExportedFunction)]
        = [({ name := "sendWelcomeEmail", path := "src/lib/email.ts",
              exportName := "sendWelcomeEmail",
              metadata := { isAsync := true,
                            parameters := [{ name := "userId", type := some "string",
                                             optional := false }],
                            returnType := none, docstring := none },
              envVars := none } : ExportedFunction)]
      ∧ ["DATABASE_URL"] = ["DATABASE_URL"])
    ∧ generateEnvImports ["DATABASE_URL"]
          ++ generateFunctionsModule
            [{ name := "sendWelcomeEmail", path := "src/lib/email.ts",
               exportName := "sendWelcomeEmail",
               metadata := { isAsync := true,
                             parameters := [{ name := "userId", type := some "string",
                                              optional := false }],
                             returnType := none, docstring := none },
               envVars := none }]
        = generateEnvImports ["DATABASE_URL"]
            ++ generateFunctionsModule
              [{ name := "sendWelcomeEmail", path := "src/lib/email.ts",
                 exportName := "sendWelcomeEmail",
                 metadata := { isAsync := true,
                               parameters := [{ name := "userId", type := some "string",
                                                optional := false }],
                               returnType := none, docstring := none },
                 envVars := none }] :=
  ⟨⟨rfl, rfl⟩,
    (C2_synthesis_deterministic _ _ _ _ rfl rfl).1⟩

/-! ## C1: duplicate export names

Within one file, the regex-driven extractor `extractExportedItems` (esbuild
variant, part_006) scans in four phases: function patterns, the class
pattern, constants, and `export { … }` statements.  The function, constant
and export-statement phases push a candidate only when no collected item
already has its name (`!exportedItems.some(item => item.name === name)`);
the class phase pushes its candidate UNCONDITIONALLY — there is no guard at
that push site.  The synthesizer `generateFunctionsModule` emits one
`export const` binding per aggregate item with no deduplication at all. -/

structure ExportedItem where
  name : String
  type : String
  signature : String
  isAsync : Bool
  returnType : String
  params : String
deriving DecidableEq

/-- The guarded push of `extractExportedItems`: the duplicate-name check
`!exportedItems.some(item => item.name === name)` guarding the push of
function candidates (part_006 lines 306-316), constant candidates, and
`export { … }` entries. -/
def pushUniq (acc : List ExportedItem) (it : ExportedItem) : List ExportedItem :=
  if acc.any (fun x => x.name = it.name) then acc else acc ++ [it]

/-- The push of class-declaration candidates (part_006 lines 403-411):
`exportedItems.push({ name: className, type: 'class', … })` with NO
duplicate-name guard. -/
def pushClass (acc : List ExportedItem) (it : ExportedItem) : List ExportedItem :=
  acc ++ [it]

/-- `extractExportedItems` (part_006): the four scan phases in source order —
function patterns, then the class pattern, then constants, then
`export { … }` statements — each folding its push discipline over the
candidate stream its regexes produce (the candidate lists are the oracle
outputs of those scans, in match order). -/
def extractExportedItems (fnCands classCands constCands exportCands :
    List ExportedItem) : List ExportedItem :=
  exportCands.foldl pushUniq
    (constCands.foldl pushUniq
      (classCands.foldl pushClass
        (fnCands.foldl pushUniq [])))

/-- Folding the guarded push from an empty accumulator. -/
def collectItems (cands : List ExportedItem) : List ExportedItem :=
  cands.foldl pushUniq []

/-- Reference recursion: keep a candidate iff its name is unseen. -/
def collectFiltered (seen : List String) : List ExportedItem → List ExportedItem
  | [] => []
  | it :: rest =>
    if it.name ∈ seen then collectFiltered seen rest
    else it :: collectFiltered (seen ++ [it.name]) rest

theorem collectFiltered_cons (seen : List String) (it : ExportedItem)
    (rest : List ExportedItem) :
    collectFiltered seen (it :: rest)
      = if it.name ∈ seen then collectFiltered seen rest
        else it :: collectFiltered (seen ++ [it.name]) rest := rfl

theorem fold_pushUniq_eq :
    ∀ (cands : List ExportedItem) (acc : List ExportedItem),
      cands.foldl pushUniq acc = acc ++ collectFiltered (acc.map (·.name)) cands := by
  intro cands
  induction cands with
  | nil => intro acc; simp [collectFiltered]
  | cons it rest ih =>
    intro acc
    by_cases hmem : it.name ∈ acc.map (·.name)
    · have hany : acc.any (fun x => x.name = it.name) = true := by
        simp only [List.any_eq_true]
        obtain ⟨x, hx, hxn⟩ := List.mem_map.mp hmem
        exact ⟨x, hx, by simp [hxn]⟩
      show List.foldl pushUniq (pushUniq acc it) rest = _
      rw [show pushUniq acc it = acc from by unfold pushUniq; rw [if_pos hany]]
      rw [ih acc]
      rw [collectFiltered_cons, if_pos hmem]
    · have hany : acc.any (fun x => x.name = it.name) = false := by
        simp only [List.any_eq_false]
        intro x hx
        intro hxn
        exact hmem (List.mem_map.mpr ⟨x, hx, by simpa using hxn⟩)
      show List.foldl pushUniq (pushUniq acc it) rest = _
      rw [show pushUniq acc it = acc ++ [it] from by unfold pushUniq; rw [hany]; simp]
      rw [ih (acc ++ [it])]
      rw [collectFiltered_cons, if_neg hmem]
      simp

/-- The class phase appends every candidate: no guard is applied. -/
theorem foldl_pushClass_append (cl : List ExportedItem) :
    ∀ s : List ExportedItem, cl.foldl pushClass s = s ++ cl := by
  induction cl with
  | nil => intro s; simp
  | cons it cl2 ih =>
    intro s
    show cl2.foldl pushClass (s ++ [it]) = s ++ it :: cl2
    rw [ih (s ++ [it])]
    simp

/-- With no class-declaration candidates the extractor is the guarded fold
over the remaining phases in order. -/
theorem extract_no_classes (fnCands constCands exportCands : List ExportedItem) :
    extractExportedItems fnCands [] constCands exportCands
      = collectItems (fnCands ++ (constCands ++ exportCands)) := by
  unfold extractExportedItems collectItems
  simp [List.foldl_append]

theorem collectFiltered_first :
    ∀ (cands : List ExportedItem) (seen : List String) (it : ExportedItem),
      it ∈ collectFiltered seen cands →
        ¬ it.name ∈ seen ∧ cands.find? (fun x => x.name = it.name) = some it := by
  intro cands
  induction cands with
  | nil => intro seen it h; simp [collectFiltered] at h
  | cons it0 rest ih =>
    intro seen it h
    unfold collectFiltered at h
    split at h
    · next hmem =>
      obtain ⟨hns, hfind⟩ := ih seen it h
      have hne : ¬ it0.name = it.name := by
        intro heq
        exact hns (by rw [← heq]; exact hmem)
      refine ⟨hns, ?_⟩
      rw [List.find?_cons_of_neg _ (by simpa using hne)]
      exact hfind
    · next hmem =>
      rcases List.mem_cons.mp h with heq | hmem2
      · subst heq
        exact ⟨hmem, by rw [List.find?_cons_of_pos _ (by simp)]⟩
      · obtain ⟨hns, hfind⟩ := ih _ it hmem2
        have hnseen : ¬ it.name ∈ seen := fun hc => hns (by simp [hc])
        have hne : ¬ it0.name = it.name := by
          intro heq
          exact hns (by simp [heq])
        refine ⟨hnseen, ?_⟩
        rw [List.find?_cons_of_neg _ (by simpa using hne)]
        exact hfind

theorem collectFiltered_nodup :
    ∀ (cands : List ExportedItem) (seen : List String),
      ((collectFiltered seen cands).map (·.name)).Nodup
        ∧ ∀ n ∈ (collectFiltered seen cands).map (·.name), ¬ n ∈ seen := by
  intro cands
  induction cands with
  | nil => intro seen; simp [collectFiltered]
  | cons it0 rest ih =>
    intro seen
    unfold collectFiltered
    split
    · exact ih seen
    · next hmem =>
      obtain ⟨hnd, hdis⟩ := ih (seen ++ [it0.name])
      constructor
      · simp only [List.map_cons, List.nodup_cons]
        refine ⟨fun hc => ?_, hnd⟩
        exact hdis _ hc (by simp)
      · intro n hn
        simp only [List.map_cons, List.mem_cons] at hn
        rcases hn with hn | hn
        · subst hn; exact hmem
        · intro hc
          exact hdis n hn (by simp [hc])

theorem collectFiltered_complete :
    ∀ (cands : List ExportedItem) (seen : List String) (it : ExportedItem),
      it ∈ cands → ¬ it.name ∈ seen →
        ∃ it2 ∈ collectFiltered seen cands, it2.name = it.name := by
  intro cands
  induction cands with
  | nil => intro seen it h; simp at h
  | cons it0 rest ih =>
    intro seen it h hseen
    rcases List.mem_cons.mp h with heq | hmem
    · subst heq
      unfold collectFiltered
      split
      · exact absurd (by assumption) hseen
      · exact ⟨it, by simp, rfl⟩
    · unfold collectFiltered
      split
      · exact ih seen it hmem hseen
      · by_cases hsame : it.name = it0.name
        · exact ⟨it0, by simp, hsame.symm⟩
        · obtain ⟨it2, hit2, hit2n⟩ :=
            ih (seen ++ [it0.name]) it hmem (by simp [hseen, hsame])
          exact ⟨it2, by simp [hit2], hit2n⟩

/-- Number of occurrences (at distinct start positions) of `pat` in a text. -/
def countOccur (pat : List Char) : List Char → Nat
  | [] => 0
  | c :: cs => (if (litStrip pat (c :: cs)).isSome then 1 else 0) + countOccur pat cs

def helperFnA : ExportedFunction :=
  { name := "helper", path := "src/lib/a.ts", exportName := "helper",
    metadata := { isAsync := false, parameters := [], returnType := none,
                  docstring := none },
    envVars := none }

def helperFnB : ExportedFunction :=
  { name := "helper", path := "src/lib/b.ts", exportName := "helper",
    metadata := { isAsync := false, parameters := [], returnType := none,
                  docstring := none },
    envVars := none }

set_option maxRecDepth 8192 in
/-- C1 counterexample: for the aggregate export set holding two discovered
items that share the name `helper` but come from different declaring files,
the module synthesizer `generateFunctionsModule` emits TWO `export const
helper = ` bindings — refuting "the synthesizer emits exactly one binding for
that name (never two bindings for the same exported name)". -/
theorem C1_counterexample :
    helperFnA.name = helperFnB.name
      ∧ ¬ helperFnA.path = helperFnB.path
      ∧ countOccur ("export const helper = ".data)
          (generateFunctionsModule [helperFnA, helperFnB]).data = 2 := by
  decide

def itemA : ExportedItem :=
  { name := "helper", type := "function", signature := "function helper(): any",
    isAsync := false, returnType := "any", params := "" }

def itemB : ExportedItem :=
  { name := "helper", type := "function", signature := "function helper(x): any",
    isAsync := false, returnType := "any", params := "x" }

def fnFoo : ExportedItem :=
  { name := "Foo", type := "function", signature := "function Foo(): any",
    isAsync := false, returnType := "any", params := "" }

def classFoo : ExportedItem :=
  { name := "Foo", type := "class", signature := "class Foo",
    isAsync := false, returnType := "Foo", params := "" }

/-- C1 amended: the duplicate-name guard applies only to the function,
constant and export-statement phases — among those candidates the
first-discovered declaration wins (`Nodup` names, each kept item is the first
candidate bearing its name, every candidate name represented); the class
phase pushes unconditionally (`pushClass` appends every candidate), so a file
exporting both `function Foo` and `class Foo` yields two items named `Foo`
from one file; and the synthesizer emits one binding per aggregate item
(`exportLines` has exactly one line per input item), deduplicating nothing. -/
theorem C1_amended (fnCands constCands exportCands classCands s :
      List ExportedItem) (fns : List ExportedFunction) (it : ExportedItem)
    (h : it ∈ extractExportedItems fnCands [] constCands exportCands) :
    ((extractExportedItems fnCands [] constCands exportCands).map (·.name)).Nodup
      ∧ (fnCands ++ (constCands ++ exportCands)).find?
          (fun x => x.name = it.name) = some it
      ∧ (∀ it0 ∈ fnCands ++ (constCands ++ exportCands),
          ∃ it2 ∈ extractExportedItems fnCands [] constCands exportCands,
            it2.name = it0.name)
      ∧ classCands.foldl pushClass s = s ++ classCands
      ∧ ¬ ((extractExportedItems [fnFoo] [classFoo] [] []).map (·.name)).Nodup
      ∧ (exportLines fns).length = fns.length := by
  have hc : extractExportedItems fnCands [] constCands exportCands
      = collectFiltered [] (fnCands ++ (constCands ++ exportCands)) := by
    rw [extract_no_classes]
    unfold collectItems
    rw [fold_pushUniq_eq]
    simp
  refine ⟨?_, ?_, ?_, foldl_pushClass_append classCands s, by decide,
    by simp [exportLines]⟩
  · rw [hc]
    exact (collectFiltered_nodup _ []).1
  · rw [hc] at h
    exact (collectFiltered_first _ [] it h).2
  · intro it0 h0
    rw [hc]
    exact collectFiltered_complete _ [] it0 h0 (by simp)

/-- Witness for the amended C1: a candidate stream with two same-named
function items keeps only the first, while a class candidate is appended
unguarded. -/
theorem C1_amended_witness :
    itemA ∈ extractExportedItems [itemA, itemB] [] [] []
      ∧ (((extractExportedItems [itemA, itemB] [] [] []).map (·.name)).Nodup
        ∧ ([itemA, itemB] ++ ([] ++ [])).find?
            (fun x => x.name = itemA.name) = some itemA
        ∧ (∀ it0 ∈ [itemA, itemB] ++ ([] ++ []),
            ∃ it2 ∈ extractExportedItems [itemA, itemB] [] [] [],
              it2.name = it0.name)
        ∧ [classFoo].foldl pushClass [] = [] ++ [classFoo]
        ∧ ¬ ((extractExportedItems [fnFoo] [classFoo] [] []).map (·.name)).Nodup
        ∧ (exportLines [helperFnA, helperFnB]).length
            = [helperFnA, helperFnB].length) :=
  ⟨by decide,
    C1_amended [itemA, itemB] [] [] [classFoo] [] [helperFnA, helperFnB] itemA
      (by decide)⟩

/-! ## The directory scanner (vite-plugin variant of `scanDirectory`)

The filesystem is modelled as an explicit entry tree whose child order is the
order `readdir` reports; `resolve`/`normalizePath` are modelled as POSIX path
concatenation with `/`.  The scanner prunes a subdirectory iff its NAME is
literally an element of the exclude list, and accepts a file iff the full
path ends with some include pattern with its first `*` removed
(`pattern.replace('*', '')`) — files are never tested against the exclude
patterns. -/

mutual
inductive FsEntry where
  | file (name : String)
  | dir (name : String) (entries : FsEntries)
inductive FsEntries where
  | nil
  | cons (e : FsEntry) (rest : FsEntries)
end

/-- `pattern.replace('*', '')`: removes only the first `*`. -/
def removeFirstStar : List Char → List Char
  | [] => []
  | c :: r => if c = '*' then r else c :: removeFirstStar r

/-- The scanner's per-file test:
`include.some(pattern => fullPath.endsWith(pattern.replace('*', '')))`. -/
def fileAccept (includePats : List String) (fullPath : String) : Bool :=
  includePats.any (fun pat => (removeFirstStar pat.data).isSuffixOf fullPath.data)

mutual
def scanEntry (includePats excludePats : List String) (currentDir : String) :
    FsEntry → List String
  | .file n =>
    if fileAccept includePats (currentDir ++ "/" ++ n)
    then [currentDir ++ "/" ++ n] else []
  | .dir n es =>
    if n ∈ excludePats then []
    else scanEntriesGo includePats excludePats (currentDir ++ "/" ++ n) es
def scanEntriesGo (includePats excludePats : List String) (currentDir : String) :
    FsEntries → List String
  | .nil => []
  | .cons e rest =>
    scanEntry includePats excludePats currentDir e
      ++ scanEntriesGo includePats excludePats currentDir rest
end

mutual
def walkEntry (excludePats : List String) (currentDir : String) :
    FsEntry → List String
  | .file n => [currentDir ++ "/" ++ n]
  | .dir n es =>
    if n ∈ excludePats then []
    else walkGo excludePats (currentDir ++ "/" ++ n) es
def walkGo (excludePats : List String) (currentDir : String) :
    FsEntries → List String
  | .nil => []
  | .cons e rest =>
    walkEntry excludePats currentDir e ++ walkGo excludePats currentDir rest
end

mutual
theorem scanEntry_eq_filter (includePats excludePats : List String)
    (currentDir : String) (e : FsEntry) :
    scanEntry includePats excludePats currentDir e
      = (walkEntry excludePats currentDir e).filter (fileAccept includePats) := by
  cases e with
  | file n =>
    show (if fileAccept includePats (currentDir ++ "/" ++ n)
        then [currentDir ++ "/" ++ n] else [])
      = List.filter (fileAccept includePats) [currentDir ++ "/" ++ n]
    cases h : fileAccept includePats (currentDir ++ "/" ++ n) <;> simp [h]
  | dir n es =>
    show (if n ∈ excludePats then []
        else scanEntriesGo includePats excludePats (currentDir ++ "/" ++ n) es)
      = List.filter (fileAccept includePats)
          (if n ∈ excludePats then []
           else walkGo excludePats (currentDir ++ "/" ++ n) es)
    split
    · rfl
    · exact scanGo_eq_filter includePats excludePats (currentDir ++ "/" ++ n) es
theorem scanGo_eq_filter (includePats excludePats : List String)
    (currentDir : String) (es : FsEntries) :
    scanEntriesGo includePats excludePats currentDir es
      = (walkGo excludePats currentDir es).filter (fileAccept includePats) := by
  cases es with
  | nil => rfl
  | cons e rest =>
    show scanEntry includePats excludePats currentDir e
        ++ scanEntriesGo includePats excludePats currentDir rest
      = List.filter (fileAccept includePats)
          (walkEntry excludePats currentDir e ++ walkGo excludePats currentDir rest)
    rw [List.filter_append]
    rw [scanEntry_eq_filter includePats excludePats currentDir e]
    rw [scanGo_eq_filter includePats excludePats currentDir rest]
end

/-- Split on every occurrence of a separator character. -/
def splitOnC (sep : Char) : List Char → List (List Char)
  | [] => [[]]
  | c :: cs =>
    if c = sep then [] :: splitOnC sep cs
    else
      match splitOnC sep cs with
      | [] => [[c]]
      | p :: ps => (c :: p) :: ps

/-- Match one glob segment against one path segment; `*` matches any run of
characters within the segment.  Fuelled so that it evaluates in the kernel. -/
def segMatchGo : Nat → List Char → List Char → Bool
  | 0, _, _ => false
  | _ + 1, [], [] => true
  | fuel + 1, '*' :: ps, [] => segMatchGo fuel ps []
  | fuel + 1, '*' :: ps, c :: cs =>
    segMatchGo fuel ps (c :: cs) || segMatchGo fuel ('*' :: ps) cs
  | fuel + 1, p :: ps, c :: cs => p = c && segMatchGo fuel ps cs
  | _ + 1, _ :: _, [] => false
  | _ + 1, [], _ :: _ => false

def segMatch (p n : List Char) : Bool :=
  segMatchGo (p.length + n.length + 1) p n

/-- Match a segment-split glob against a segment-split path; a `**` pattern
segment matches zero or more path segments. -/
def globSegsGo : Nat → List (List Char) → List (List Char) → Bool
  | 0, _, _ => false
  | _ + 1, [], [] => true
  | _ + 1, [], _ :: _ => false
  | fuel + 1, p :: ps, segs =>
    if p = ['*', '*'] then
      globSegsGo fuel ps segs
        || (match segs with
            | [] => false
            | _ :: ss => globSegsGo fuel (p :: ps) ss)
    else
      match segs with
      | [] => false
      | s :: ss => segMatch p s && globSegsGo fuel ps ss

/-- Break at the first occurrence of a character. -/
def breakAtChar (sep : Char) : List Char → Option (List Char × List Char)
  | [] => none
  | c :: cs =>
    if c = sep then some ([], cs)
    else (breakAtChar sep cs).map (fun p => (c :: p.1, p.2))

/-- Expand one (non-nested) brace alternation group `{a,b,…}`. -/
def expandBraces (p : List Char) : List (List Char) :=
  match breakAtChar '\x7b' p with
  | none => [p]
  | some (pre, rest) =>
    match breakAtChar '\x7d' rest with
    | none => [p]
    | some (inner, post) => (splitOnC ',' inner).map (fun alt => pre ++ alt ++ post)

/-- Modelled from the spec: the Pattern Matcher of §4.1 — the repository
delegates glob matching of include/exclude patterns to the external `glob`
library, so the spec's matching notion (segment wildcards `*`, the any-depth
segment `**`, and one brace-style alternation of file extensions) is modelled
here to state what "a path matches a pattern" means in the claims. -/
def specMatches (pattern path : String) : Bool :=
  (expandBraces pattern.data).any (fun p =>
    let ps := splitOnC '/' p
    let ss := splitOnC '/' path.data
    globSegsGo (ps.length + ss.length + 1) ps ss)

example : specMatches "**/*.test.ts" "src/a.test.ts" = true := by decide
example : specMatches "*.ts" "src/a.test.ts" = false := by decide
example : specMatches "**/*.\x7bts,js\x7d" "src/lib/util.js" = true := by decide

/-- C6 counterexample: with include patterns `["*.ts"]` and exclude patterns
`["**/*.test.ts"]`, the scanner accepts `src/a.test.ts` — a path that matches
an exclude pattern (and does not even glob-match the include pattern, whose
`endsWith`-based test nevertheless passes) — refuting "accepted iff it
matches at least one include pattern and none of the exclude patterns". -/
theorem C6_counterexample :
    scanEntriesGo ["*.ts"] ["**/*.test.ts"] "src"
        (.cons (.file "a.test.ts") .nil) = ["src/a.test.ts"]
      ∧ specMatches "**/*.test.ts" "src/a.test.ts" = true
      ∧ specMatches "*.ts" "src/a.test.ts" = false := by
  decide

/-- C6 amended: the scan's filter is `fileAccept` — the full path must end
with some include pattern stripped of its first `*` — applied to exactly the
files reachable without entering a directory whose name is literally in the
exclude list; exclude patterns are never applied to files. -/
theorem C6_amended (includePats excludePats : List String) (currentDir : String)
    (es : FsEntries) (p : String) :
    (p ∈ scanEntriesGo includePats excludePats currentDir es
      ↔ p ∈ walkGo excludePats currentDir es ∧ fileAccept includePats p = true) := by
  rw [scanGo_eq_filter]
  simp [List.mem_filter]

def appendEs : FsEntries → FsEntries → FsEntries
  | .nil, es2 => es2
  | .cons e rest, es2 => .cons e (appendEs rest es2)

/-- Lexical (code-point) order on texts. -/
def lexLt : List Char → List Char → Bool
  | [], [] => false
  | [], _ :: _ => true
  | _ :: _, [] => false
  | a :: as, b :: bs => if a = b then lexLt as bs else decide (a.toNat < b.toNat)

/-- C8 counterexample: the scanner returns files in the order the directory
iteration reports them, not sorted — listing `b.ts` before `a.ts` yields
`["src/b.ts", "src/a.ts"]`, which is not in lexical order by full path (the
lexically smaller path comes second), and the reversed listing yields the
reversed output, so the result depends on the filesystem's iteration order. -/
theorem C8_counterexample :
    scanEntriesGo ["*.ts"] [] "src"
        (.cons (.file "b.ts") (.cons (.file "a.ts") .nil))
      = ["src/b.ts", "src/a.ts"]
      ∧ scanEntriesGo ["*.ts"] [] "src"
          (.cons (.file "a.ts") (.cons (.file "b.ts") .nil))
        = ["src/a.ts", "src/b.ts"]
      ∧ lexLt "src/a.ts".data "src/b.ts".data = true := by
  decide

theorem scanGo_append (includePats excludePats : List String) (currentDir : String)
    (es1 es2 : FsEntries) :
    scanEntriesGo includePats excludePats currentDir (appendEs es1 es2)
      = scanEntriesGo includePats excludePats currentDir es1
          ++ scanEntriesGo includePats excludePats currentDir es2 := by
  cases es1 with
  | nil => rfl
  | cons e rest =>
    show scanEntry includePats excludePats currentDir e
        ++ scanEntriesGo includePats excludePats currentDir (appendEs rest es2) = _
    rw [scanGo_append includePats excludePats currentDir rest es2]
    simp [scanEntriesGo]

/-- C8 amended: the scan returns candidate paths in depth-first traversal
order following the filesystem's reported entry order — the output for a
concatenation of directory listings is the concatenation of the outputs, so
permuting the iteration order permutes the result instead of leaving it in a
stable lexical order. -/
theorem C8_amended (includePats excludePats : List String) (currentDir : String)
    (es1 es2 : FsEntries) :
    scanEntriesGo includePats excludePats currentDir (appendEs es1 es2)
      = scanEntriesGo includePats excludePats currentDir es1
          ++ scanEntriesGo includePats excludePats currentDir es2 :=
  scanGo_append includePats excludePats currentDir es1 es2

/-! ## C7: missing root directories are skipped with a warning -/

def warnMissing (dirPath : String) : String :=
  "Directory " ++ dirPath ++ " does not exist"

/-- The `configResolved` scan of `src/lib/triggerkit.ts` (lines 25-50): for
each configured root, a missing directory contributes a warning and no
functions; an existing one contributes its per-root scan result (the glob
walk, file reads and parses, modelled by the `scanRoot` oracle). -/
def configResolvedScan (fsExists : String → Bool)
    (scanRoot : String → List ExportedFunction) (dirs : List String) :
    List ExportedFunction × List String :=
  dirs.foldr
    (fun d acc =>
      if fsExists d then (scanRoot d ++ acc.1, acc.2)
      else (acc.1, warnMissing d :: acc.2))
    ([], [])

theorem configResolvedScan_cons (fsExists : String → Bool)
    (scanRoot : String → List ExportedFunction) (a : String) (rest : List String) :
    configResolvedScan fsExists scanRoot (a :: rest)
      = if fsExists a then
          (scanRoot a ++ (configResolvedScan fsExists scanRoot rest).1,
           (configResolvedScan fsExists scanRoot rest).2)
        else ((configResolvedScan fsExists scanRoot rest).1,
           warnMissing a :: (configResolvedScan fsExists scanRoot rest).2) := rfl

/-- C7 (error_handling): when a configured root directory does not exist, the
scan emits a warning naming it, skips it, and still returns exactly the
results of the remaining (existing) roots — the whole scan never fails. -/
theorem C7_missing_root (fsExists : String → Bool)
    (scanRoot : String → List ExportedFunction) (dirs : List String) (d : String)
    (h : fsExists d = false) (hmem : d ∈ dirs) :
    (configResolvedScan fsExists scanRoot dirs).1
        = (dirs.filter (fun x => fsExists x)).flatMap scanRoot
      ∧ warnMissing d ∈ (configResolvedScan fsExists scanRoot dirs).2 := by
  constructor
  · clear hmem
    induction dirs with
    | nil => rfl
    | cons a rest ih =>
      rw [configResolvedScan_cons]
      by_cases ha : fsExists a = true
      · rw [if_pos ha]
        show scanRoot a ++ (configResolvedScan fsExists scanRoot rest).1 = _
        rw [List.filter_cons_of_pos (by simp [ha]), List.flatMap_cons, ih]
      · rw [if_neg ha]
        show (configResolvedScan fsExists scanRoot rest).1 = _
        rw [List.filter_cons_of_neg (by simpa using ha), ih]
  · induction dirs with
    | nil => simp at hmem
    | cons a rest ih =>
      rw [configResolvedScan_cons]
      rcases List.mem_cons.mp hmem with heq | hmem2
      · subst heq
        rw [if_neg (by simp [h])]
        simp
      · by_cases ha : fsExists a = true
        · rw [if_pos ha]
          exact ih hmem2
        · rw [if_neg ha]
          exact List.mem_cons_of_mem _ (ih hmem2)

/-- Witness for C7: the middle root of three is missing. -/
theorem C7_missing_root_witness :
    ((fun dd => decide (¬ dd = "src/missing")) "src/missing" = false
        ∧ "src/missing" ∈ ["src/lib", "src/missing", "src/routes/api"])
      ∧ ((configResolvedScan (fun dd => decide (¬ dd = "src/missing"))
            (fun _ => [helperFnA]) ["src/lib", "src/missing", "src/routes/api"]).1
          = (["src/lib", "src/missing", "src/routes/api"].filter
              (fun x => (fun dd => decide (¬ dd = "src/missing")) x)).flatMap
              (fun _ => [helperFnA])
        ∧ warnMissing "src/missing"
            ∈ (configResolvedScan (fun dd => decide (¬ dd = "src/missing"))
                (fun _ => [helperFnA]) ["src/lib", "src/missing", "src/routes/api"]).2) :=
  ⟨⟨by decide, by decide⟩,
    C7_missing_root (fun dd => decide (¬ dd = "src/missing")) (fun _ => [helperFnA])
      ["src/lib", "src/missing", "src/routes/api"] "src/missing"
      (by decide) (by decide)⟩

/-! ## C10: idempotence of the environment-import transformer

The proof shows that the transformer's output never contains a match of the
environment-import pattern: a match attempt that starts inside an emitted
`const { … } = process.env;` block, or that starts earlier and runs into one,
always fails — after the block's closing brace the scanner demands `from` but
finds ` = process.env;` — and a match attempt lying entirely in copied text
would already have matched in the input. -/

theorem litStrip_some_prefix {p s r : List Char} (h : litStrip p s = some r) :
    s = p ++ r := by
  induction p generalizing s with
  | nil => simp [litStrip] at h; simp [h]
  | cons a ps ih =>
    cases s with
    | nil => simp [litStrip] at h
    | cons c cs =>
      simp only [litStrip] at h
      split at h
      · next hc => rw [hc, ih h]; rfl
      · exact absurd h (by simp)

theorem litStrip_append_split {p a b r : List Char}
    (h : litStrip p (a ++ b) = some r) :
    (∃ a2, a = p ++ a2 ∧ r = a2 ++ b) ∨ (∃ p2, p = a ++ p2 ∧ litStrip p2 b = some r) := by
  induction a generalizing p with
  | nil => exact Or.inr ⟨p, rfl, h⟩
  | cons x a2 ih =>
    cases p with
    | nil =>
      simp only [litStrip] at h
      left
      exact ⟨x :: a2, rfl, by simpa using h.symm⟩
    | cons q p2 =>
      simp only [List.cons_append, litStrip] at h
      split at h
      · next hx =>
        rcases ih h with ⟨a3, ha, hr⟩ | ⟨p3, hp, hs⟩
        · exact Or.inl ⟨a3, by rw [hx, ha]; rfl, hr⟩
        · exact Or.inr ⟨p3, by rw [hx, hp]; rfl, hs⟩
      · exact absurd h (by simp)

theorem litStrip_take_none {p a : List Char}
    (h : litStrip (p.take a.length) a = none) (x : List Char) :
    litStrip p (a ++ x) = none := by
  induction a generalizing p with
  | nil => simp [litStrip] at h
  | cons c a2 ih =>
    cases p with
    | nil => simp [litStrip] at h
    | cons q p2 =>
      simp only [List.length_cons, List.take_succ_cons, litStrip] at h
      simp only [List.cons_append, litStrip]
      split at h
      · next hc => rw [if_pos hc]; exact ih h
      · next hc => rw [if_neg hc]

theorem dropWhile_append_pos {p : Char → Bool} {a : List Char} {c : Char}
    {cs : List Char} (h : a.dropWhile p = c :: cs) (b : List Char) :
    (a ++ b).dropWhile p = c :: (cs ++ b) := by
  induction a with
  | nil => simp [List.dropWhile] at h
  | cons x a2 ih =>
    rw [List.dropWhile_cons] at h
    rw [List.cons_append, List.dropWhile_cons]
    split at h
    · next hx => rw [if_pos (by simp [hx])]; exact ih h
    · next hx =>
      rw [if_neg hx]
      obtain ⟨h1, h2⟩ := List.cons.injEq .. |>.mp h
      rw [h1, h2]

theorem dropWhile_append_nil {p : Char → Bool} {a : List Char}
    (h : a.dropWhile p = []) (b : List Char) :
    (a ++ b).dropWhile p = b.dropWhile p := by
  induction a with
  | nil => simp
  | cons x a2 ih =>
    rw [List.dropWhile_cons] at h
    rw [List.cons_append, List.dropWhile_cons]
    split at h
    · next hx => rw [if_pos (by simp [hx])]; exact ih h
    · simp at h

theorem takeWhile_append_stop {p : Char → Bool} {a : List Char} {c : Char}
    {cs : List Char} (h : a.dropWhile p = c :: cs) (b : List Char) :
    (a ++ b).takeWhile p = a.takeWhile p := by
  induction a with
  | nil => simp [List.dropWhile] at h
  | cons x a2 ih =>
    rw [List.dropWhile_cons] at h
    rw [List.cons_append, List.takeWhile_cons, List.takeWhile_cons]
    split at h
    · next hx => rw [if_pos (by simp [hx]), if_pos (by simp [hx])]; rw [ih h]
    · next hx => rw [if_neg hx, if_neg hx]

theorem takeWhile_append_nil {p : Char → Bool} {a : List Char}
    (h : a.dropWhile p = []) (b : List Char) :
    (a ++ b).takeWhile p = a ++ b.takeWhile p := by
  induction a with
  | nil => simp
  | cons x a2 ih =>
    rw [List.dropWhile_cons] at h
    rw [List.cons_append, List.takeWhile_cons]
    split at h
    · next hx => rw [if_pos (by simp [hx]), ih h]; rfl
    · simp at h

theorem splitComma_sub {piece l : List Char} (h : piece ∈ splitComma l) :
    ∀ c ∈ piece, c ∈ l := by
  induction l generalizing piece with
  | nil =>
    simp [splitComma] at h
    subst h
    simp
  | cons x cs ih =>
    simp only [splitComma] at h
    split at h
    · rcases List.mem_cons.mp h with heq | hmem
      · subst heq; simp
      · intro c hc
        exact List.mem_cons_of_mem x (ih hmem c hc)
    · cases hs : splitComma cs with
      | nil => exact absurd hs (splitComma_ne_nil cs)
      | cons p0 ps =>
        rw [hs] at h
        rcases List.mem_cons.mp h with heq | hmem
        · subst heq
          intro c hc
          rcases List.mem_cons.mp hc with hc | hc
          · simp [hc]
          · exact List.mem_cons_of_mem x (ih (by rw [hs]; simp) c hc)
        · intro c hc
          exact List.mem_cons_of_mem x (ih (by rw [hs]; simp [hmem]) c hc)

theorem trimL_sub {l : List Char} : ∀ c ∈ trimL l, c ∈ l := by
  intro c hc
  unfold trimL at hc
  rw [List.mem_reverse] at hc
  have h1 := List.dropWhile_sublist (l := (l.dropWhile isWsChar).reverse) isWsChar
  have h2 := h1.subset hc
  rw [List.mem_reverse] at h2
  exact (List.dropWhile_sublist isWsChar).subset h2

theorem matchEnv_head_ne {c : Char} {x : List Char} (h : ¬ c = 'i') :
    matchEnv (c :: x) = none := by
  unfold matchEnv
  simp [litImport, litStrip, h]

theorem matchEnv_starts_import {s : List Char} {g r : List Char}
    (h : matchEnv s = some (g, r)) : ∃ s2, s = litImport ++ s2 := by
  unfold matchEnv at h
  cases h1 : litStrip litImport s with
  | none => simp [h1] at h
  | some s1 => exact ⟨s1, litStrip_some_prefix h1⟩

theorem braceGroup_sub {r : List Char} : ∀ c ∈ braceGroup r, c ∈ r := by
  intro c hc
  have hc2 : c ∈ (if (r.dropWhile isWsChar).isEmpty then r.drop (r.length - 1)
      else r.dropWhile isWsChar) := hc
  split at hc2
  · exact List.drop_subset _ r hc2
  · exact (List.dropWhile_sublist isWsChar).subset hc2

theorem matchEnv_group_free {s g r : List Char} (h : matchEnv s = some (g, r)) :
    ∀ c ∈ g, ¬ c = '\x7d' := by
  unfold matchEnv at h
  cases h1 : litStrip litImport s with
  | none => simp [h1] at h
  | some s1 =>
    simp only [h1] at h
    cases h2 : s1.dropWhile isWsChar with
    | nil => simp [h2] at h
    | cons b s3 =>
      simp only [h2] at h
      split at h
      · cases h4 : s3.dropWhile (fun c => !(c = '\x7d')) with
        | nil => simp [h4] at h
        | cons d s5 =>
          simp only [h4] at h
          split at h
          · exact absurd h (by simp)
          · cases h6 : litStrip litFrom (s5.dropWhile isWsChar) with
            | none => simp [h6] at h
            | some s7 =>
              simp only [h6] at h
              cases h8 : s7.dropWhile isWsChar with
              | nil => simp [h8] at h
              | cons q1 s9 =>
                simp only [h8] at h
                split at h
                · cases h10 : litStrip litEnvStatic s9 with
                  | none => simp [h10] at h
                  | some s10 =>
                    simp only [h10] at h
                    cases h11 : (match litStrip litPrivate s10 with
                       | some z => some z
                       | none => litStrip litPublic s10) with
                    | none => simp [h11] at h
                    | some s11 =>
                      simp only [h11] at h
                      split at h
                      · exact absurd h (by simp)
                      · rename_i q2 s12
                        split at h
                        · rw [Option.some.injEq, Prod.mk.injEq] at h
                          intro c hc
                          rw [← h.1] at hc
                          have := braceGroup_sub c hc
                          have := List.mem_takeWhile_imp this
                          simpa using this
                        · exact absurd h (by simp)
                · exact absurd h (by simp)
      · exact absurd h (by simp)

/-- The characters of the emitted variable list are characters of the capture
group, commas, or spaces — never a closing brace when the group has none. -/
theorem joinVars_free {g : List Char} (hg : ∀ c ∈ g, ¬ c = '\x7d') :
    ∀ c ∈ joinCommaSp (envVarsOf g), ¬ c = '\x7d' := by
  intro c hc
  rcases joinCommaSp_mem hc with ⟨n, hn, hcn⟩ | h | h
  · unfold envVarsOf at hn
    rw [List.mem_filter] at hn
    obtain ⟨piece, hpiece, htrim⟩ := List.mem_map.mp hn.1
    subst htrim
    exact hg c (splitComma_sub hpiece c (trimL_sub c hcn))
  · subst h; decide
  · subst h; decide

def ccAfterBrace : List Char :=
  [' ', '=', ' ', 'p', 'r', 'o', 'c', 'e', 's', 's', '.', 'e', 'n', 'v', ';']

theorem constClose_eq : constClose = ' ' :: '\x7d' :: ccAfterBrace := rfl

theorem dropWhile_nb_cc (x : List Char) :
    (constClose ++ x).dropWhile (fun c => !(c = '\x7d'))
      = '\x7d' :: (ccAfterBrace ++ x) := rfl

theorem takeWhile_nb_cc (x : List Char) :
    (constClose ++ x).takeWhile (fun c => !(c = '\x7d')) = [' '] := rfl

theorem dropWhile_ws_cc (x : List Char) :
    (constClose ++ x).dropWhile isWsChar = '\x7d' :: (ccAfterBrace ++ x) := rfl

theorem dropWhile_ws_ccAfter (x : List Char) :
    (ccAfterBrace ++ x).dropWhile isWsChar
      = '=' :: ([' ', 'p', 'r', 'o', 'c', 'e', 's', 's', '.', 'e', 'n', 'v', ';'] ++ x) := rfl

theorem litStrip_from_eq (x : List Char) : litStrip litFrom ('=' :: x) = none := rfl

theorem imp_tails_cc : ∀ p2 ∈ litImport.tails, ¬ p2 = [] →
    litStrip (p2.take constClose.length) constClose = none := by decide

theorem append_singleton_ne_nil (a : List Char) (c : Char) :
    ((a ++ [c]).isEmpty) = false := by
  cases a <;> simp

/-- A match attempt starting at or after the emitted variable list, i.e. on
`v ++ " } = process.env;" ++ t` with `v` free of closing braces, always
fails: the first closing brace it can find is the block's own, and after it
the scanner demands `from` but finds `=`. -/
theorem matchEnv_inVars_none (v t : List Char) (hv : ∀ c ∈ v, ¬ c = '\x7d') :
    matchEnv (v ++ constClose ++ t) = none := by
  unfold matchEnv
  rw [List.append_assoc]
  cases h1 : litStrip litImport (v ++ (constClose ++ t)) with
  | none => simp [h1]
  | some s1 =>
    simp only [h1]
    rcases litStrip_append_split h1 with ⟨v2, hv2, hs1⟩ | ⟨p2, hp2, hps⟩
    · -- `import` was read inside `v`
      subst hs1
      have hv2f : ∀ c ∈ v2, ¬ c = '\x7d' := by
        intro c hc
        exact hv c (by rw [hv2]; simp [hc])
      cases hd : v2.dropWhile isWsChar with
      | nil =>
        rw [dropWhile_append_nil hd, dropWhile_ws_cc]
        simp
      | cons b v3 =>
        have e1 : (v2 ++ (constClose ++ t)).dropWhile isWsChar
            = b :: (v3 ++ (constClose ++ t)) := dropWhile_append_pos hd _
        have hv3f : ∀ c ∈ v3, ¬ c = '\x7d' := by
          intro c hc
          have hsub := (List.dropWhile_sublist isWsChar (l := v2)).subset
          exact hv2f c (hsub (by rw [hd]; simp [hc]))
        by_cases hb : b = '\x7b'
        · subst hb
          have hnb : v3.dropWhile (fun c => !(c = '\x7d')) = [] := by
            rw [List.dropWhile_eq_nil_iff]
            intro c hc
            simp [hv3f c hc]
          have e2 : (v3 ++ (constClose ++ t)).dropWhile (fun c => !(c = '\x7d'))
              = '\x7d' :: (ccAfterBrace ++ t) := by
            rw [dropWhile_append_nil hnb, dropWhile_nb_cc]
          have e3 : (v3 ++ (constClose ++ t)).takeWhile (fun c => !(c = '\x7d'))
              = v3 ++ [' '] := by
            rw [takeWhile_append_nil hnb, takeWhile_nb_cc]
          simp only [e1, e2, e3, append_singleton_ne_nil, Bool.false_eq_true, if_false,
            if_true, dropWhile_ws_ccAfter, litStrip_from_eq]
        · simp only [e1, if_neg hb]
    · -- `import` would have to straddle the boundary: impossible
      cases p2 with
      | nil =>
        -- the whole of `import` sits in `v` with nothing left over
        simp only [litStrip, Option.some.injEq] at hps
        have hs : s1 = constClose ++ t := hps.symm
        subst hs
        rw [dropWhile_ws_cc]
        simp
      | cons q p3 =>
        exact absurd hps (by
          rw [litStrip_take_none
            (imp_tails_cc (q :: p3) ((List.mem_tails _ _).mpr ⟨v, hp2.symm⟩)
              (by simp)) t]
          simp)

theorem suffix_append_cases {d a b : List Char} (h : d <:+ a ++ b) :
    (∃ a2, a2 <:+ a ∧ d = a2 ++ b) ∨ d <:+ b := by
  obtain ⟨u, hu⟩ := h
  induction a generalizing u with
  | nil => right; exact ⟨u, by simpa using hu⟩
  | cons x a2 ih =>
    cases u with
    | nil =>
      left
      exact ⟨x :: a2, List.suffix_refl _, by simpa using hu⟩
    | cons y u2 =>
      simp only [List.cons_append] at hu
      injection hu with h1 h2
      rcases ih u2 h2 with ⟨a3, ha3, hd2⟩ | hsuf
      · exact Or.inl ⟨a3, ha3.trans (List.suffix_cons x a2), hd2⟩
      · exact Or.inr hsuf

theorem constOpen_tails_ne_i : ∀ x ∈ constOpen.tails, ¬ x.headD 'z' = 'i' := by decide

theorem constClose_tails_ne_i : ∀ x ∈ constClose.tails, ¬ x.headD 'z' = 'i' := by decide

/-- A match attempt starting anywhere inside an emitted
`const { vars } = process.env;` block fails. -/
theorem matchEnv_inBlock_none (j : List Char) (hj : ∀ c ∈ j, ¬ c = '\x7d')
    (d : List Char) (hd : d <:+ constOpen ++ (j ++ constClose)) (hne : ¬ d = [])
    (t : List Char) : matchEnv (d ++ t) = none := by
  rcases suffix_append_cases hd with ⟨co, hco, hdeq⟩ | hd2
  · cases co with
    | nil =>
      subst hdeq
      simp only [List.nil_append]
      exact matchEnv_inVars_none j t hj
    | cons c0 co2 =>
      subst hdeq
      have hne_i : ¬ c0 = 'i' := by
        have := constOpen_tails_ne_i (c0 :: co2) ((List.mem_tails _ _).mpr hco)
        simpa using this
      rw [List.cons_append]
      exact matchEnv_head_ne hne_i
  · rcases suffix_append_cases hd2 with ⟨j2, hj2s, hdeq⟩ | hd3
    · subst hdeq
      exact matchEnv_inVars_none j2 t
        (fun c hc => hj c (hj2s.subset hc))
    · cases d with
      | nil => exact absurd rfl hne
      | cons c0 d2 =>
        have hne_i : ¬ c0 = 'i' := by
          have := constClose_tails_ne_i (c0 :: d2) ((List.mem_tails _ _).mpr hd3)
          simpa using this
        rw [List.cons_append]
        exact matchEnv_head_ne hne_i

def coTail : List Char := ['o', 'n', 's', 't', ' ', '\x7b', ' ']

theorem constOpen_eq : constOpen = 'c' :: coTail := rfl

theorem dropWhile_head_not {p : Char → Bool} {a : List Char} {c : Char}
    {cs : List Char} (h : a.dropWhile p = c :: cs) : p c = false := by
  induction a with
  | nil => simp [List.dropWhile] at h
  | cons x a2 ih =>
    rw [List.dropWhile_cons] at h
    split at h
    · exact ih h
    · next hx =>
      obtain ⟨h1, h2⟩ := List.cons.injEq .. |>.mp h
      rw [← h1]
      simpa using hx

theorem imp_tails_co : ∀ p2 ∈ litImport.tails, ¬ p2 = [] →
    litStrip (p2.take constOpen.length) constOpen = none := by decide

theorem from_tails_co : ∀ p2 ∈ litFrom.tails, ¬ p2 = [] →
    litStrip (p2.take constOpen.length) constOpen = none := by decide

theorem env_tails_co : ∀ p2 ∈ litEnvStatic.tails, ¬ p2 = [] →
    litStrip (p2.take constOpen.length) constOpen = none := by decide

theorem priv_tails_co : ∀ p2 ∈ litPrivate.tails, ¬ p2 = [] →
    litStrip (p2.take constOpen.length) constOpen = none := by decide

theorem pub_tails_co : ∀ p2 ∈ litPublic.tails, ¬ p2 = [] →
    p2 = ['c'] ∨ litStrip (p2.take constOpen.length) constOpen = none := by decide

theorem dropWhile_ws_co (x : List Char) :
    (constOpen ++ x).dropWhile isWsChar = 'c' :: (coTail ++ x) := rfl

theorem litStrip_from_co (x : List Char) :
    litStrip litFrom (constOpen ++ x) = none := rfl

theorem litStrip_c_co (x : List Char) :
    litStrip ['c'] (constOpen ++ x) = some (coTail ++ x) := rfl

theorem quote_c_false : isQuoteChar 'c' = false := rfl

theorem quote_o_false : isQuoteChar 'o' = false := rfl

theorem dropWhile_nb_co_j {j : List Char} (hj : ∀ c ∈ j, ¬ c = '\x7d')
    (t : List Char) :
    (constOpen ++ (j ++ (constClose ++ t))).dropWhile (fun c => !(c = '\x7d'))
      = '\x7d' :: (ccAfterBrace ++ t) := by
  rw [dropWhile_append_nil (by decide)]
  rw [dropWhile_append_nil (by
    rw [List.dropWhile_eq_nil_iff]
    intro c hc
    simp [hj c hc])]
  exact dropWhile_nb_cc t

theorem takeWhile_nb_co_j {j : List Char} (hj : ∀ c ∈ j, ¬ c = '\x7d')
    (t : List Char) :
    (constOpen ++ (j ++ (constClose ++ t))).takeWhile (fun c => !(c = '\x7d'))
      = constOpen ++ (j ++ [' ']) := by
  rw [takeWhile_append_nil (by decide)]
  rw [takeWhile_append_nil (by
    rw [List.dropWhile_eq_nil_iff]
    intro c hc
    simp [hj c hc])]
  rw [takeWhile_nb_cc]

theorem litStrip_from_c (x : List Char) : litStrip litFrom ('c' :: x) = none := rfl

theorem litStrip_priv_c (x : List Char) : litStrip litPrivate ('c' :: x) = none := rfl

theorem litStrip_pub_c (x : List Char) : litStrip litPublic ('c' :: x) = none := rfl

/-- Once the scanner state before an emitted block has been decomposed into
the pieces a successful match consumed, the same pieces drive a successful
match when the emitted block is replaced by any `import …` continuation. -/
theorem matchEnv_build {w1 w2 w3 w5 w6 w7 w8 w9 : List Char} {d0 q1 q2 : Char}
    (z2 : List Char)
    (hd1 : w1.dropWhile isWsChar = '\x7b' :: w2)
    (hd2 : w2.dropWhile (fun c => !(c = '\x7d')) = d0 :: w3)
    (hemp : (w2.takeWhile (fun c => !(c = '\x7d'))).isEmpty = false)
    (hd3 : w3.dropWhile isWsChar = litFrom ++ w5)
    (hd5 : w5.dropWhile isWsChar = q1 :: w6)
    (hq1 : isQuoteChar q1 = true)
    (hw6 : w6 = litEnvStatic ++ w7)
    (halt : (match litStrip litPrivate (w7 ++ 'i' :: z2) with
             | some x => some x
             | none => litStrip litPublic (w7 ++ 'i' :: z2)) = some (w8 ++ 'i' :: z2))
    (hw8 : w8 = q2 :: w9)
    (hq2 : isQuoteChar q2 = true) :
    ¬ matchEnv ((litImport ++ w1) ++ 'i' :: z2) = none := by
  have e1 : litStrip litImport ((litImport ++ w1) ++ 'i' :: z2)
      = some (w1 ++ 'i' :: z2) := by
    rw [List.append_assoc, litStrip_self]
  have e2 : (w1 ++ 'i' :: z2).dropWhile isWsChar = '\x7b' :: (w2 ++ 'i' :: z2) :=
    dropWhile_append_pos hd1 _
  have e3 : (w2 ++ 'i' :: z2).dropWhile (fun c => !(c = '\x7d'))
      = d0 :: (w3 ++ 'i' :: z2) :=
    dropWhile_append_pos hd2 _
  have e4 : (w2 ++ 'i' :: z2).takeWhile (fun c => !(c = '\x7d'))
      = w2.takeWhile (fun c => !(c = '\x7d')) :=
    takeWhile_append_stop hd2 _
  have e5 : (w3 ++ 'i' :: z2).dropWhile isWsChar = litFrom ++ (w5 ++ 'i' :: z2) := by
    have := dropWhile_append_pos
      (show w3.dropWhile isWsChar = 'f' :: (['r', 'o', 'm'] ++ w5) from hd3) ('i' :: z2)
    rw [this]
    simp [litFrom]
  have e6 : litStrip litFrom (litFrom ++ (w5 ++ 'i' :: z2))
      = some (w5 ++ 'i' :: z2) := litStrip_self _ _
  have e7 : (w5 ++ 'i' :: z2).dropWhile isWsChar = q1 :: (w6 ++ 'i' :: z2) :=
    dropWhile_append_pos hd5 _
  have e8 : litStrip litEnvStatic (w6 ++ 'i' :: z2) = some (w7 ++ 'i' :: z2) := by
    rw [hw6, List.append_assoc, litStrip_self]
  unfold matchEnv
  rw [e1]
  simp only [e2, if_pos rfl]
  simp only [e3, e4, hemp, Bool.false_eq_true, if_false]
  simp only [e5, e6, e7, hq1, if_pos rfl]
  simp only [e8, halt]
  simp only [hw8, List.cons_append, hq2, if_pos rfl]
  simp

/-- CORE transfer lemma: a successful match that starts before an emitted
`const \x7b vars \x7d = process.env;` block must be satisfied entirely before
the block, because every scanner stage dies as soon as it touches the block;
hence the same prefix also matches when the block and everything after it is
replaced by any continuation starting with `i`. -/
theorem matchEnv_before_block (w j t z2 : List Char)
    (hj : ∀ c ∈ j, ¬ c = '\x7d') (pr : List Char × List Char)
    (h : matchEnv (w ++ (constOpen ++ (j ++ (constClose ++ t)))) = some pr) :
    ¬ matchEnv (w ++ 'i' :: z2) = none := by
  unfold matchEnv at h
  cases h1 : litStrip litImport (w ++ (constOpen ++ (j ++ (constClose ++ t)))) with
  | none => simp [h1] at h
  | some s1 =>
    simp only [h1] at h
    have hsplit1 : ∃ w1, w = litImport ++ w1
        ∧ s1 = w1 ++ (constOpen ++ (j ++ (constClose ++ t))) := by
      rcases litStrip_append_split h1 with ⟨w1, hw1, hs1⟩ | ⟨p2, hp2, hps⟩
      · exact ⟨w1, hw1, hs1⟩
      · cases p2 with
        | nil =>
          refine ⟨[], by simpa using hp2.symm, ?_⟩
          simp only [litStrip, Option.some.injEq] at hps
          simp [hps.symm]
        | cons q p3 =>
          exact absurd hps (by
            rw [litStrip_take_none
              (imp_tails_co _ ((List.mem_tails _ _).mpr ⟨_, hp2.symm⟩) (by simp)) _]
            simp)
    obtain ⟨w1, hw, hs1⟩ := hsplit1
    subst hs1
    subst hw
    cases hd1 : w1.dropWhile isWsChar with
    | nil =>
      have e : (w1 ++ (constOpen ++ (j ++ (constClose ++ t)))).dropWhile isWsChar
          = 'c' :: (coTail ++ (j ++ (constClose ++ t))) := by
        rw [dropWhile_append_nil hd1, dropWhile_ws_co]
      simp [e] at h
    | cons b w2 =>
      have e : (w1 ++ (constOpen ++ (j ++ (constClose ++ t)))).dropWhile isWsChar
          = b :: (w2 ++ (constOpen ++ (j ++ (constClose ++ t)))) :=
        dropWhile_append_pos hd1 _
      simp only [e] at h
      by_cases hb : b = '\x7b'
      case neg =>
        rw [if_neg hb] at h
        simp at h
      case pos =>
        subst hb
        rw [if_pos rfl] at h
        cases hd2 : w2.dropWhile (fun c => !(c = '\x7d')) with
        | nil =>
          have e2 : (w2 ++ (constOpen ++ (j ++ (constClose ++ t)))).dropWhile
              (fun c => !(c = '\x7d')) = '\x7d' :: (ccAfterBrace ++ t) := by
            rw [dropWhile_append_nil hd2]
            exact dropWhile_nb_co_j hj t
          have e3 : (w2 ++ (constOpen ++ (j ++ (constClose ++ t)))).takeWhile
              (fun c => !(c = '\x7d')) = w2 ++ (constOpen ++ (j ++ [' '])) := by
            rw [takeWhile_append_nil hd2, takeWhile_nb_co_j hj t]
          have e4 : (w2 ++ (constOpen ++ (j ++ [' ']))).isEmpty = false := by
            cases w2 <;> simp [constOpen]
          simp only [e2, e3, e4, Bool.false_eq_true, if_false] at h
          rw [dropWhile_ws_ccAfter, litStrip_from_eq] at h
          simp at h
        | cons d0 w3 =>
          have e2 : (w2 ++ (constOpen ++ (j ++ (constClose ++ t)))).dropWhile
              (fun c => !(c = '\x7d'))
              = d0 :: (w3 ++ (constOpen ++ (j ++ (constClose ++ t)))) :=
            dropWhile_append_pos hd2 _
          have e3 : (w2 ++ (constOpen ++ (j ++ (constClose ++ t)))).takeWhile
              (fun c => !(c = '\x7d')) = w2.takeWhile (fun c => !(c = '\x7d')) :=
            takeWhile_append_stop hd2 _
          simp only [e2, e3] at h
          cases hemp : (w2.takeWhile (fun c => !(c = '\x7d'))).isEmpty with
          | true => simp [hemp] at h
          | false =>
            simp only [hemp, Bool.false_eq_true, if_false] at h
            cases hd3 : w3.dropWhile isWsChar with
            | nil =>
              have e5 : (w3 ++ (constOpen ++ (j ++ (constClose ++ t)))).dropWhile isWsChar
                  = 'c' :: (coTail ++ (j ++ (constClose ++ t))) := by
                rw [dropWhile_append_nil hd3, dropWhile_ws_co]
              rw [e5, litStrip_from_c] at h
              simp at h
            | cons b2 w4 =>
              have e5 : (w3 ++ (constOpen ++ (j ++ (constClose ++ t)))).dropWhile isWsChar
                  = (b2 :: w4) ++ (constOpen ++ (j ++ (constClose ++ t))) := by
                rw [dropWhile_append_pos hd3]
                rfl
              rw [e5] at h
              cases h6 : litStrip litFrom
                  ((b2 :: w4) ++ (constOpen ++ (j ++ (constClose ++ t)))) with
              | none =>
                simp only [h6] at h
                simp at h
              | some s7 =>
                simp only [h6] at h
                have hsplit2 : ∃ w5, b2 :: w4 = litFrom ++ w5
                    ∧ s7 = w5 ++ (constOpen ++ (j ++ (constClose ++ t))) := by
                  rcases litStrip_append_split h6 with ⟨w5, hw5, hs7⟩ | ⟨p2, hp2, hps⟩
                  · exact ⟨w5, hw5, hs7⟩
                  · cases p2 with
                    | nil =>
                      refine ⟨[], by simpa using hp2.symm, ?_⟩
                      simp only [litStrip, Option.some.injEq] at hps
                      simp [hps.symm]
                    | cons q p3 =>
                      exact absurd hps (by
                        rw [litStrip_take_none
                          (from_tails_co _ ((List.mem_tails _ _).mpr ⟨_, hp2.symm⟩)
                            (by simp)) _]
                        simp)
                obtain ⟨w5, hw5, hs7⟩ := hsplit2
                subst hs7
                cases hd5 : w5.dropWhile isWsChar with
                | nil =>
                  have e7 : (w5 ++ (constOpen ++ (j ++ (constClose ++ t)))).dropWhile
                      isWsChar = 'c' :: (coTail ++ (j ++ (constClose ++ t))) := by
                    rw [dropWhile_append_nil hd5, dropWhile_ws_co]
                  simp only [e7] at h
                  simp [quote_c_false] at h
                | cons q1 w6 =>
                  have e7 : (w5 ++ (constOpen ++ (j ++ (constClose ++ t)))).dropWhile
                      isWsChar = q1 :: (w6 ++ (constOpen ++ (j ++ (constClose ++ t)))) :=
                    dropWhile_append_pos hd5 _
                  simp only [e7] at h
                  cases hq1 : isQuoteChar q1 with
                  | false => simp [hq1] at h
                  | true =>
                    rw [if_pos hq1] at h
                    cases h10 : litStrip litEnvStatic
                        (w6 ++ (constOpen ++ (j ++ (constClose ++ t)))) with
                    | none => simp [h10] at h
                    | some s10 =>
                      simp only [h10] at h
                      have hsplit3 : ∃ w7, w6 = litEnvStatic ++ w7
                          ∧ s10 = w7 ++ (constOpen ++ (j ++ (constClose ++ t))) := by
                        rcases litStrip_append_split h10 with ⟨w7, hw7, hs10⟩ | ⟨p2, hp2, hps⟩
                        · exact ⟨w7, hw7, hs10⟩
                        · cases p2 with
                          | nil =>
                            refine ⟨[], by simpa using hp2.symm, ?_⟩
                            simp only [litStrip, Option.some.injEq] at hps
                            simp [hps.symm]
                          | cons q p3 =>
                            exact absurd hps (by
                              rw [litStrip_take_none
                                (env_tails_co _ ((List.mem_tails _ _).mpr ⟨_, hp2.symm⟩)
                                  (by simp)) _]
                              simp)
                      obtain ⟨w7, hw7, hs10⟩ := hsplit3
                      subst hs10
                      cases hpriv : litStrip litPrivate
                          (w7 ++ (constOpen ++ (j ++ (constClose ++ t)))) with
                      | some sp =>
                        have hsplit4 : ∃ w8, w7 = litPrivate ++ w8
                            ∧ sp = w8 ++ (constOpen ++ (j ++ (constClose ++ t))) := by
                          rcases litStrip_append_split hpriv with ⟨w8, hw8p, hsp⟩ | ⟨p2, hp2, hps⟩
                          · exact ⟨w8, hw8p, hsp⟩
                          · cases p2 with
                            | nil =>
                              refine ⟨[], by simpa using hp2.symm, ?_⟩
                              simp only [litStrip, Option.some.injEq] at hps
                              simp [hps.symm]
                            | cons q p3 =>
                              exact absurd hps (by
                                rw [litStrip_take_none
                                  (priv_tails_co _ ((List.mem_tails _ _).mpr ⟨_, hp2.symm⟩)
                                    (by simp)) _]
                                simp)
                        obtain ⟨w8, hw8p, hsp⟩ := hsplit4
                        subst hsp
                        simp only [hpriv] at h
                        have hialt : (match litStrip litPrivate (w7 ++ 'i' :: z2) with
                            | some x => some x
                            | none => litStrip litPublic (w7 ++ 'i' :: z2))
                            = some (w8 ++ 'i' :: z2) := by
                          rw [show w7 ++ 'i' :: z2 = litPrivate ++ (w8 ++ 'i' :: z2) by
                            rw [hw8p, List.append_assoc]]
                          rw [litStrip_self]
                        have hd3x : w3.dropWhile isWsChar = litFrom ++ w5 := by
                          rw [hd3, hw5]
                        cases w8 with
                        | nil =>
                          have e9 : ([] : List Char) ++ (constOpen ++ (j ++ (constClose ++ t)))
                              = 'c' :: (coTail ++ (j ++ (constClose ++ t))) := rfl
                          simp only [e9] at h
                          simp [quote_c_false] at h
                        | cons q2 w9 =>
                          have e9 : (q2 :: w9) ++ (constOpen ++ (j ++ (constClose ++ t)))
                              = q2 :: (w9 ++ (constOpen ++ (j ++ (constClose ++ t)))) := rfl
                          simp only [e9] at h
                          cases hq2 : isQuoteChar q2 with
                          | false => simp [hq2] at h
                          | true =>
                            exact matchEnv_build z2 hd1 hd2 hemp hd3x hd5 hq1 hw7 hialt rfl hq2
                      | none =>
                        cases hpub : litStrip litPublic
                            (w7 ++ (constOpen ++ (j ++ (constClose ++ t)))) with
                        | none => simp [hpriv, hpub] at h
                        | some sp2 =>
                          have hchoice : (∃ w8, w7 = litPublic ++ w8
                              ∧ sp2 = w8 ++ (constOpen ++ (j ++ (constClose ++ t))))
                              ∨ sp2 = 'o' :: (['n', 's', 't', ' ', '\x7b', ' ']
                                  ++ (j ++ (constClose ++ t))) := by
                            rcases litStrip_append_split hpub with ⟨w8, hw8p, hsp⟩ | ⟨p2, hp2, hps⟩
                            · exact Or.inl ⟨w8, hw8p, hsp⟩
                            · cases p2 with
                              | nil =>
                                refine Or.inl ⟨[], by simpa using hp2.symm, ?_⟩
                                simp only [litStrip, Option.some.injEq] at hps
                                simp [hps.symm]
                              | cons q p3 =>
                                rcases pub_tails_co _ ((List.mem_tails _ _).mpr ⟨_, hp2.symm⟩)
                                    (by simp) with hc | hkill
                                · right
                                  rw [hc, litStrip_c_co] at hps
                                  simp only [Option.some.injEq] at hps
                                  rw [← hps]
                                  rfl
                                · exact absurd hps (by
                                    rw [litStrip_take_none hkill _]
                                    simp)
                          rcases hchoice with ⟨w8, hw8p, hsp⟩ | hsp
                          · subst hsp
                            simp only [hpriv, hpub] at h
                            have hialt : (match litStrip litPrivate (w7 ++ 'i' :: z2) with
                                | some x => some x
                                | none => litStrip litPublic (w7 ++ 'i' :: z2))
                                = some (w8 ++ 'i' :: z2) := by
                              have hv : w7 ++ 'i' :: z2 = litPublic ++ (w8 ++ 'i' :: z2) := by
                                rw [hw8p, List.append_assoc]
                              have h2 : litStrip litPrivate (w7 ++ 'i' :: z2) = none := by
                                rw [hv]
                                exact litStrip_private_of_public _
                              simp only [h2]
                              rw [hv, litStrip_self]
                            have hd3x : w3.dropWhile isWsChar = litFrom ++ w5 := by
                              rw [hd3, hw5]
                            cases w8 with
                            | nil =>
                              have e9 : ([] : List Char)
                                  ++ (constOpen ++ (j ++ (constClose ++ t)))
                                  = 'c' :: (coTail ++ (j ++ (constClose ++ t))) := rfl
                              simp only [e9] at h
                              simp [quote_c_false] at h
                            | cons q2 w9 =>
                              have e9 : (q2 :: w9) ++ (constOpen ++ (j ++ (constClose ++ t)))
                                  = q2 :: (w9 ++ (constOpen ++ (j ++ (constClose ++ t)))) := rfl
                              simp only [e9] at h
                              cases hq2 : isQuoteChar q2 with
                              | false => simp [hq2] at h
                              | true =>
                                exact matchEnv_build z2 hd1 hd2 hemp hd3x hd5 hq1 hw7 hialt
                                  rfl hq2
                          · subst hsp
                            simp only [hpriv, hpub] at h
                            simp [quote_o_false] at h

theorem hasEnvMatch_eq_false_iff (u : List Char) :
    hasEnvMatch u = false ↔ ∀ d, d <:+ u → matchEnv d = none := by
  induction u with
  | nil =>
    constructor
    · intro _ d hd
      rw [List.suffix_nil.mp hd]
      exact matchEnv_nil
    · intro _
      rfl
  | cons c cs ih =>
    constructor
    · intro h d hd
      simp only [hasEnvMatch, Bool.or_eq_false_iff] at h
      rcases List.suffix_cons_iff.mp hd with heq | hsuf
      · subst heq
        exact Option.not_isSome_iff_eq_none.mp (by simp [h.1])
      · exact (ih.mp h.2) d hsuf
    · intro h
      simp only [hasEnvMatch, Bool.or_eq_false_iff]
      constructor
      · rw [h (c :: cs) (List.suffix_refl _)]
        rfl
      · exact ih.mpr (fun d hd => h d (hd.trans (List.suffix_cons c cs)))

/-- Leftmost-match decomposition of the transformer: either the input has no
match anywhere and is returned unchanged, or it splits as `pre ++ rest2` where
`rest2` carries the first match and no match starts inside `pre`. -/
theorem transformL_struct (s : List Char) :
    (transformEnvImportsL s = s ∧ hasEnvMatch s = false)
    ∨ ∃ pre rest2 g r, s = pre ++ rest2 ∧ matchEnv rest2 = some (g, r)
        ∧ transformEnvImportsL s = pre ++ (envDestr g ++ transformEnvImportsL r)
        ∧ ∀ w, w <:+ pre → ¬ w = [] → matchEnv (w ++ rest2) = none := by
  induction s with
  | nil => exact Or.inl ⟨rfl, rfl⟩
  | cons c cs ih =>
    cases hm : matchEnv (c :: cs) with
    | some gr =>
      cases gr with
      | mk g r =>
        right
        refine ⟨[], c :: cs, g, r, rfl, hm, ?_, ?_⟩
        · rw [transformL_match hm]
          rfl
        · intro w hw hne
          rw [List.suffix_nil.mp hw] at hne
          exact absurd rfl hne
    | none =>
      rcases ih with ⟨hT, hM⟩ | ⟨pre, rest2, g, r, hcs, hm2, hT, hpre⟩
      · left
        refine ⟨?_, ?_⟩
        · rw [transformL_nomatch hm, hT]
        · simp [hasEnvMatch, hm, hM]
      · right
        refine ⟨c :: pre, rest2, g, r, by simp [hcs], hm2, ?_, ?_⟩
        · rw [transformL_nomatch hm, hT]
          rfl
        · intro w hw hne
          rcases List.suffix_cons_iff.mp hw with heq | hsuf
          · rw [heq, show (c :: pre) ++ rest2 = c :: cs by rw [hcs]; rfl]
            exact hm
          · exact hpre w hsuf hne

/-- No match survives in the output of the transformer: positions inside an
emitted block fail by `matchEnv_inBlock_none`, positions before one fail by
`matchEnv_before_block` together with the leftmost-match property, and
positions in the recursively transformed rest fail by induction. -/
theorem hasEnvMatch_transformL_fuel : ∀ (n : Nat) (s : List Char), s.length ≤ n →
    hasEnvMatch (transformEnvImportsL s) = false := by
  intro n
  induction n with
  | zero =>
    intro s hs
    have hs0 : s = [] := List.length_eq_zero.mp (Nat.le_zero.mp hs)
    subst hs0
    rfl
  | succ n ih =>
    intro s hs
    rcases transformL_struct s with ⟨hT, hM⟩ | ⟨pre, rest2, g, r, hcs, hm, hT, hpre⟩
    · rw [hT]
      exact hM
    · rw [hT, hasEnvMatch_eq_false_iff]
      intro d hd
      have hrlen : r.length ≤ n := by
        have h1 := matchEnv_rest_lt hm
        have h2 : rest2.length ≤ s.length := by
          rw [hcs]
          simp
        omega
      have hTr := ih r hrlen
      have hjfree : ∀ c ∈ joinCommaSp (envVarsOf g), ¬ c = '\x7d' :=
        joinVars_free (matchEnv_group_free hm)
      rcases suffix_append_cases hd with ⟨w, hwpre, hdeq⟩ | hd2
      · subst hdeq
        cases w with
        | nil =>
          have hkill := matchEnv_inBlock_none (joinCommaSp (envVarsOf g)) hjfree
            (constOpen ++ (joinCommaSp (envVarsOf g) ++ constClose)) (List.suffix_refl _)
            (by simp [constOpen]) (transformEnvImportsL r)
          rw [show ([] : List Char) ++ (envDestr g ++ transformEnvImportsL r)
              = (constOpen ++ (joinCommaSp (envVarsOf g) ++ constClose))
                ++ transformEnvImportsL r by simp [envDestr]]
          exact hkill
        | cons c0 w2 =>
          cases hmd : matchEnv ((c0 :: w2) ++ (envDestr g ++ transformEnvImportsL r)) with
          | none => rfl
          | some pr2 =>
            exfalso
            obtain ⟨s2, hs2⟩ := matchEnv_starts_import hm
            have hrest : rest2 = 'i' :: (['m', 'p', 'o', 'r', 't'] ++ s2) := by
              rw [hs2]
              rfl
            rw [show (c0 :: w2) ++ (envDestr g ++ transformEnvImportsL r)
                = (c0 :: w2) ++ (constOpen ++ (joinCommaSp (envVarsOf g)
                    ++ (constClose ++ transformEnvImportsL r))) by
              simp [envDestr]] at hmd
            have hcore := matchEnv_before_block (c0 :: w2) (joinCommaSp (envVarsOf g))
              (transformEnvImportsL r) (['m', 'p', 'o', 'r', 't'] ++ s2) hjfree pr2 hmd
            apply hcore
            rw [← hrest]
            exact hpre (c0 :: w2) hwpre (by simp)
      · rcases suffix_append_cases hd2 with ⟨d2, hd2s, hdeq⟩ | hd3
        · subst hdeq
          cases d2 with
          | nil =>
            rw [List.nil_append]
            exact (hasEnvMatch_eq_false_iff _).mp hTr _ (List.suffix_refl _)
          | cons e0 d3 =>
            have hED : envDestr g = constOpen ++ (joinCommaSp (envVarsOf g) ++ constClose) := by
              simp [envDestr]
            rw [hED] at hd2s
            exact matchEnv_inBlock_none _ hjfree (e0 :: d3) hd2s (by simp) _
        · exact (hasEnvMatch_eq_false_iff _).mp hTr d hd3

theorem hasEnvMatch_transformL (s : List Char) :
    hasEnvMatch (transformEnvImportsL s) = false :=
  hasEnvMatch_transformL_fuel s.length s le_rfl

/-- C10: the environment-import transformer is idempotent — for every input
string, applying `transformEnvImports` twice equals applying it once: the
emitted `process.env` destructuring is never itself recognized as an
environment import, and text without a recognized environment import is
returned unchanged. -/
theorem C10_transform_idempotent (code : String) :
    transformEnvImports (transformEnvImports code) = transformEnvImports code := by
  unfold transformEnvImports
  rw [show (String.mk (transformEnvImportsL code.data)).data
      = transformEnvImportsL code.data from rfl]
  rw [transformL_of_no_match (hasEnvMatch_transformL code.data)]
